import Mathlib

/-!
Verification of the agent-dashboard status store, aggregator and refresh loop.

This file gives a shallow embedding of the Python sources `report.py` (the
writer side: `report_status`, `clear_status`) and `monitor.py` (the reader
side: `read_agent_status`, `get_all_agents`, the ranking logic of
`build_dashboard`, and the `run_dashboard` loop), and proves or refutes the
specified properties of the store protocol and the aggregation pipeline.

Modelling conventions:
- JSON-decoded Python values are the inductive type `PyVal`; Python dicts
  are association lists with string keys in insertion order, exactly the
  shape `json.load` produces for a status file.
- Fallible Python operations (`x in d` on a non-container, `d[k] = v` on a
  non-dict, `d.get` on a non-dict, unhashable dict keys, invalid status
  values) are modelled in `Except PyError`.
- The status directory is the list of its entries in enumeration order
  (`Path.iterdir` order is filesystem dependent; the list order is that
  enumeration order).  A persisted file is its decoded content
  (`Option PyVal`, `Option.none` when `json.load` or the read raises) plus
  its last-modified time.
- Python's `list.sort`/`sorted` are stable sorts; a stable sort by a given
  key is unique, and is modelled by a stable insertion sort (`sortLe`).
-/

namespace AgentMonitor

open List

/-- A JSON-decoded Python value, as produced by `json.load` in
`monitor.py`: strings, integers, booleans, `None`, lists, and dicts with
string keys in insertion order. -/
inductive PyVal where
  | str (s : String)
  | int (n : Int)
  | bool (b : Bool)
  | none
  | list (xs : List PyVal)
  | dict (fields : List (String × PyVal))

mutual
/-- Structural equality test on `PyVal` (Python `==` restricted to the
comparisons the sources perform; numeric bool/int unification is handled
separately by `keyNorm` where dict keys need it). -/
def PyVal.beq : PyVal → PyVal → Bool
  | .str a, .str b => a == b
  | .int a, .int b => a == b
  | .bool a, .bool b => a == b
  | .none, .none => true
  | .list as, .list bs => PyVal.beqList as bs
  | .dict as, .dict bs => PyVal.beqDict as bs
  | _, _ => false
def PyVal.beqList : List PyVal → List PyVal → Bool
  | [], [] => true
  | a :: as, b :: bs => PyVal.beq a b && PyVal.beqList as bs
  | _, _ => false
def PyVal.beqDict : List (String × PyVal) → List (String × PyVal) → Bool
  | [], [] => true
  | (k1, v1) :: as, (k2, v2) :: bs => k1 == k2 && PyVal.beq v1 v2 && PyVal.beqDict as bs
  | _, _ => false
end

/-- The Python exceptions the modelled code can raise. -/
inductive PyError where
  | valueError
  | typeError
  | attributeError
  | oSError
  | keyboardInterrupt
deriving DecidableEq

/-- Python truthiness of a decoded value (`if data:`): empty containers,
empty strings, zero, `False` and `None` are falsy. -/
def truthy : PyVal → Bool
  | .str s => !(s == "")
  | .int n => !(n == 0)
  | .bool b => b
  | .none => false
  | .list xs => !xs.isEmpty
  | .dict fields => !fields.isEmpty

/-- First-match lookup in a dict's fields (dict keys are unique in any
`json.load` result, so first match is the lookup). -/
def dictGet : List (String × PyVal) → String → Option PyVal
  | [], _ => Option.none
  | (k1, v1) :: rest, k => if k1 = k then Option.some v1 else dictGet rest k

/-- In-place update of a dict field: an existing key keeps its position
(as Python dict assignment does), a new key is appended at the end. -/
def dictSet : List (String × PyVal) → String → PyVal → List (String × PyVal)
  | [], k, v => [(k, v)]
  | (k1, v1) :: rest, k, v =>
    if k1 = k then (k1, v) :: rest else (k1, v1) :: dictSet rest k v

/-- Substring test, modelling Python `sub in s` on strings. -/
def strContains (s sub : String) : Bool :=
  (List.range (s.data.length + 1)).any (fun i => sub.data.isPrefixOf (s.data.drop i))

/-- Python membership test `k in data` for a string `k`: key lookup on a
dict, element equality on a list, substring on a string; `TypeError` on
an int, bool or `None` (not a container, not iterable). -/
def pyContains (data : PyVal) (k : String) : Except PyError Bool :=
  match data with
  | .dict fields => .ok (fields.any (fun p => p.1 == k))
  | .list xs => .ok (xs.any (fun x => PyVal.beq x (.str k)))
  | .str s => .ok (strContains s k)
  | .int _ => .error .typeError
  | .bool _ => .error .typeError
  | .none => .error .typeError

/-- Python item assignment `data[k] = v` for a string key: only dicts
support it; a list, string, int, bool or `None` raises `TypeError`. -/
def pySetItem (data : PyVal) (k : String) (v : PyVal) : Except PyError PyVal :=
  match data with
  | .dict fields => .ok (.dict (dictSet fields k v))
  | _ => .error .typeError

/-- Python method call `data.get(k, default)`: dict lookup with a default;
any non-dict value has no `get` attribute and raises `AttributeError`. -/
def pyGetD (data : PyVal) (k : String) (default : PyVal) : Except PyError PyVal :=
  match data with
  | .dict fields => .ok ((dictGet fields k).getD default)
  | _ => .error .attributeError

/-- Whether a value can be a Python dict key (str, int, bool and None are
hashable; lists and dicts are not and raise `TypeError` when used as
keys). -/
def hashable : PyVal → Bool
  | .list _ => false
  | .dict _ => false
  | _ => true

/-- Python key normalisation: `True`/`False` hash and compare equal to
`1`/`0` as dict keys. -/
def keyNorm : PyVal → PyVal
  | .bool b => .int (if b then 1 else 0)
  | v => v

/-- Equality of two hashable values as Python dict keys. -/
def pyKeyEq (a b : PyVal) : Bool := PyVal.beq (keyNorm a) (keyNorm b)

/-- Python `v == s` for a string literal `s`: only a string can compare
equal to a string. -/
def pyEqStr (v : PyVal) (s : String) : Bool :=
  match v with
  | .str t => t == s
  | _ => false

/-! ### Sequential effectful iteration

`monitor.py` iterates with ordinary `for` loops and generator `any(...)`;
these helpers model that sequential, short-circuiting, exception-propagating
iteration in `Except PyError`. -/

/-- Map an effectful function over a list, stopping at the first raised
exception (a Python `for` loop building a list). -/
def exceptMap (f : α → Except PyError β) : List α → Except PyError (List β)
  | [] => .ok []
  | a :: as =>
    match f a with
    | .error e => .error e
    | .ok b =>
      match exceptMap f as with
      | .error e => .error e
      | .ok bs => .ok (b :: bs)

/-- Fold an effectful function over a list, stopping at the first raised
exception (a Python `for` loop updating an accumulator). -/
def exceptFoldl (f : σ → α → Except PyError σ) : σ → List α → Except PyError σ
  | s, [] => .ok s
  | s, a :: as =>
    match f s a with
    | .error e => .error e
    | .ok s1 => exceptFoldl f s1 as

/-- Short-circuiting `any(f(a) for a in l)`. -/
def exceptAny (f : α → Except PyError Bool) : List α → Except PyError Bool
  | [] => .ok false
  | a :: as =>
    match f a with
    | .error e => .error e
    | .ok true => .ok true
    | .ok false => exceptAny f as

/-! ### A stable sort

Python's `list.sort` and `sorted` are stable.  A stable sort with respect to
a total comparison is uniquely determined by its input, so any stable sort
is faithfully modelled by stable insertion: an element is inserted before
the first already-placed element it compares `≤` to, hence after every
earlier-inserted element with an equal key. -/

/-- Insert `x` before the first element `y` with `le x y`. -/
def insertLe (le : α → α → Bool) (x : α) : List α → List α
  | [] => [x]
  | y :: ys => if le x y then x :: y :: ys else y :: insertLe le x ys

/-- Stable insertion sort by the comparison `le`. -/
def sortLe (le : α → α → Bool) : List α → List α
  | [] => []
  | x :: xs => insertLe le x (sortLe le xs)

/-- Code-point comparison of character lists: Python compares strings
lexicographically by Unicode code point. -/
def charListLe : List Char → List Char → Bool
  | [], _ => true
  | _ :: _, [] => false
  | a :: as, b :: bs =>
    if a.toNat < b.toNat then true
    else if b.toNat < a.toNat then false
    else charListLe as bs

/-- Python string comparison `s <= t` (lexicographic by code point). -/
def strLe (s t : String) : Bool := charListLe s.data t.data

/-! ### The on-disk status store

`~/.agent-monitor/status` holds either repo directories with
`<worktree>.json` files inside (the nested layout) or `.json` files at the
top level (the flat, backwards-compatible layout). -/

/-- A persisted status file: its decoded content (`Option.none` when the
bytes fail to parse as JSON or the read itself raises `OSError` — both are
caught together in `read_agent_status`) and its last-modified time. -/
structure PFile where
  content : Option PyVal
  mtime : Nat

/-- One entry of the status directory: a repo subdirectory with its files,
or a top-level file.  Deeper nesting never contributes records (`open` on
a directory raises `OSError`, which `read_agent_status` swallows), so repo
directories are modelled by their plain files. -/
inductive Entry where
  | dir (name : String) (files : List (String × PFile))
  | file (name : String) (f : PFile)

/-- The status directory: its entries in enumeration order. -/
abbrev FS := List Entry

/-- The name of a directory entry. -/
def entryName : Entry → String
  | .dir n _ => n
  | .file n _ => n

/-- Whether a file name matches `Path.glob("*.json")` (`fnmatch` has no
special case for leading dots, so this is exactly a suffix test). -/
def matchesJsonGlob (name : String) : Bool := decide (".json".data <:+ name.data)

/-- Whether `Path(name).suffix == ".json"`: a suffix requires a dot at a
positive position, so the bare name `".json"` has no suffix. -/
def hasJsonSuffix (name : String) : Bool := matchesJsonGlob name && decide (5 < name.data.length)

/-! ### monitor.py — the read path -/

/-- An injective textual rendering of a last-modified time, standing in
for `datetime.fromtimestamp(mtime, tz=timezone.utc).isoformat()` (the
exact ISO text is a standard-library detail; only its provenance from the
mtime matters here). -/
def isoOfMtime (mtime : Nat) : String := "1970-01-01T00:00:" ++ toString mtime

/-- monitor.py, `read_agent_status` (lines 121-128): `json.load` the file,
returning `None` when parsing or reading raises. -/
def read_agent_status (f : PFile) : Option PyVal := f.content

/-- monitor.py line 162/178: the dict
`{"waiting_input": 0, "running": 1, "error": 2, "idle": 3, "unknown": 4}`
looked up on a string with `.get(s, 5)`. -/
def status_priority (s : String) : Nat :=
  match s with
  | "waiting_input" => 0
  | "running" => 1
  | "error" => 2
  | "idle" => 3
  | "unknown" => 4
  | _ => 5

/-- `status_priority.get(v, 5)` on an arbitrary decoded value: a string is
looked up, any other hashable value misses every (string) key and takes
the default 5, and an unhashable value raises `TypeError` when hashed. -/
def status_priority_get : PyVal → Except PyError Nat
  | .str s => .ok (status_priority s)
  | .int _ => .ok 5
  | .bool _ => .ok 5
  | .none => .ok 5
  | .list _ => .error .typeError
  | .dict _ => .error .typeError

/-- monitor.py line 163/180: the sort key
`lambda a: status_priority.get(a.get("status", "unknown"), 5)`. -/
def agent_sort_key (a : PyVal) : Except PyError Nat :=
  match pyGetD a "status" (.str "unknown") with
  | .error e => .error e
  | .ok v => status_priority_get v

/-- Comparison of key-decorated agents by their numeric priority. -/
def natPairLe (p q : Nat × PyVal) : Bool := decide (p.1 ≤ q.1)

/-- monitor.py `agents.sort(key=...)` (lines 163 and 179-180): compute the
key of every element (raising if any key computation raises, leaving the
list unchanged), then sort stably by key. -/
def sort_agents (agents : List PyVal) : Except PyError (List PyVal) :=
  match exceptMap (fun a =>
      match agent_sort_key a with
      | .error e => .error e
      | .ok k => .ok (k, a)) agents with
  | .error e => .error e
  | .ok keyed => .ok ((sortLe natPairLe keyed).map (fun p => p.2))

/-- The accumulated `repos` dict of `get_all_agents`: keys are whatever
hashable value named the repo (a directory name string, or the payload's
`"repo"` value for flat files), in insertion order. -/
abbrev ReposAcc := List (PyVal × List PyVal)

/-- Reassignment `repos[k] = v`: an existing key (first match under Python
key equality) keeps its position and its original key object; a new key is
appended. -/
def assocSetPy : ReposAcc → PyVal → List PyVal → ReposAcc
  | [], k, v => [(k, v)]
  | (k1, v1) :: rest, k, v =>
    if pyKeyEq k1 k then (k1, v) :: rest else (k1, v1) :: assocSetPy rest k v

/-- The flat-path update `if k not in repos: repos[k] = []` followed by
`repos[k].append(d)`. -/
def assocAppendPy : ReposAcc → PyVal → PyVal → ReposAcc
  | [], k, d => [(k, [d])]
  | (k1, v1) :: rest, k, d =>
    if pyKeyEq k1 k then (k1, v1 ++ [d]) :: rest else (k1, v1) :: assocAppendPy rest k d

/-- monitor.py lines 155-157 and 169-171: `if "updated_at" not in data:`
backfill it from the file's last-modified time.  On a non-dict truthy
value the membership test itself can raise `TypeError`, and a truthy
string containing the key skips the backfill (both slip past
`read_agent_status`'s exception handler). -/
def backfill_updated_at (data : PyVal) (mtime : Nat) : Except PyError PyVal :=
  match pyContains data "updated_at" with
  | .error e => .error e
  | .ok true => .ok data
  | .ok false => pySetItem data "updated_at" (.str (isoOfMtime mtime))

/-- monitor.py lines 152-159, the body run for each globbed file of a repo
directory: parse, skip falsy results, backfill `updated_at`, force
`data["repo"]` to the directory name, append. -/
def process_dir_file (repo_name : String) (agents : List PyVal) (f : PFile) :
    Except PyError (List PyVal) :=
  match read_agent_status f with
  | Option.none => .ok agents
  | Option.some data =>
    if truthy data then
      match backfill_updated_at data f.mtime with
      | .error e => .error e
      | .ok data1 =>
        match pySetItem data1 "repo" (.str repo_name) with
        | .error e => .error e
        | .ok data2 => .ok (agents ++ [data2])
    else .ok agents

/-- monitor.py lines 147-175, the body of the `status_dir.iterdir()` loop:
a subdirectory contributes its globbed `*.json` files as one repo (sorted,
and only if non-empty); a top-level `.json` file contributes one record to
the repo named by its payload (default `"_default"`). -/
def process_entry (repos : ReposAcc) : Entry → Except PyError ReposAcc
  | .dir name files =>
    match exceptFoldl (fun acc (p : String × PFile) =>
        if matchesJsonGlob p.1 then process_dir_file name acc p.2 else .ok acc) [] files with
    | .error e => .error e
    | .ok agents =>
      if agents.isEmpty then .ok repos
      else
        match sort_agents agents with
        | .error e => .error e
        | .ok sorted => .ok (assocSetPy repos (.str name) sorted)
  | .file name f =>
    if hasJsonSuffix name then
      match read_agent_status f with
      | Option.none => .ok repos
      | Option.some data =>
        if truthy data then
          match backfill_updated_at data f.mtime with
          | .error e => .error e
          | .ok data1 =>
            match pyGetD data1 "repo" (.str "_default") with
            | .error e => .error e
            | .ok repoName =>
              if hashable repoName then .ok (assocAppendPy repos repoName data1)
              else .error .typeError
        else .ok repos
    else .ok repos

/-- monitor.py `get_all_agents` (lines 131-182): scan the directory
entries in order, then re-sort every repo's agents by status priority
(lines 177-181).  A missing status directory yields the empty result;
a directory is never missing in this model (the empty list is the empty
directory). -/
def get_all_agents (status_dir : FS) : Except PyError ReposAcc :=
  match exceptFoldl process_entry [] status_dir with
  | .error e => .error e
  | .ok repos =>
    exceptMap (fun g =>
      match sort_agents g.2 with
      | .error e => .error e
      | .ok s => .ok (g.1, s)) repos

/-- monitor.py lines 309-311: the presentation config
`STATUS_CONFIG.get(status, STATUS_CONFIG["unknown"])`, reduced to its
label; every status outside the five configured ones displays as
UNKNOWN. -/
def statusLabel (status : String) : String :=
  match status with
  | "running" => "RUNNING"
  | "waiting_input" => "WAITING"
  | "idle" => "IDLE"
  | "error" => "ERROR"
  | "unknown" => "UNKNOWN"
  | _ => "UNKNOWN"

/-! ### The aggregation pipeline (`group_and_rank`)

The pure core of the read path at string-named namespaces: records are
grouped in scan order exactly as `get_all_agents` accumulates its `repos`
dict, each group is sorted by `agents.sort(key=...)` (monitor.py lines
177-181), and groups are ordered by `build_dashboard`'s `repo_priority`
(lines 252-260). -/

/-- Append a record to its namespace's group, creating the group at the
end on first sight (Python dict insertion order). -/
def add_record (repos : List (String × List PyVal)) (n : String) (r : PyVal) :
    List (String × List PyVal) :=
  match repos with
  | [] => [(n, [r])]
  | (m, rs) :: rest => if m = n then (m, rs ++ [r]) :: rest else (m, rs) :: add_record rest n r

/-- Group scanned records by namespace in scan order. -/
def groupByRepo (scan : List (String × PyVal)) : List (String × List PyVal) :=
  scan.foldl (fun acc p => add_record acc p.1 p.2) []

/-- One generator step of `any(a.get("status") == s for a in agents)`. -/
def get_status_eq (s : String) (a : PyVal) : Except PyError Bool :=
  match pyGetD a "status" .none with
  | .error e => .error e
  | .ok v => .ok (pyEqStr v s)

/-- The sort key of `build_dashboard.repo_priority` (monitor.py lines
253-258): the Python tuple
`(not has_waiting, not has_error, not has_running, repo_name)`. -/
abbrev RepoKey := Bool × Bool × Bool × String

/-- monitor.py lines 253-258: presence flags computed in source order
(waiting, running, error), tuple assembled as
`(not has_waiting, not has_error, not has_running, repo_name)`. -/
def repo_priority (agents : List PyVal) (name : String) : Except PyError RepoKey :=
  match exceptAny (get_status_eq "waiting_input") agents with
  | .error e => .error e
  | .ok hw =>
    match exceptAny (get_status_eq "running") agents with
    | .error e => .error e
    | .ok hr =>
      match exceptAny (get_status_eq "error") agents with
      | .error e => .error e
      | .ok he => .ok (!hw, !he, !hr, name)

/-- Python `False < True`: boolean comparison within a tuple compare. -/
def boolLe (x y : Bool) : Bool := !x || y

/-- Lexicographic combination of two boolean comparisons: Python compares
tuples left to right, equal components deferring to the rest. -/
def lexLe [DecidableEq α] (le1 : α → α → Bool) (le2 : β → β → Bool) (p q : α × β) : Bool :=
  if p.1 = q.1 then le2 p.2 q.2 else le1 p.1 q.1

/-- Python's lexicographic comparison of two `repo_priority` 4-tuples:
booleans compare `False < True`, the final component by string order. -/
def repoKeyLe : RepoKey → RepoKey → Bool :=
  lexLe boolLe (lexLe boolLe (lexLe boolLe strLe))

/-- Comparison of key-decorated groups by their `RepoKey`. -/
def repoPairLe (p q : RepoKey × (String × List PyVal)) : Bool := repoKeyLe p.1 q.1

/-- monitor.py line 260, `sorted(repos.keys(), key=repo_priority)`:
compute every group's key, then sort stably by the tuple order. -/
def sorted_repos (repos : List (String × List PyVal)) :
    Except PyError (List (String × List PyVal)) :=
  match exceptMap (fun g =>
      match repo_priority g.2 g.1 with
      | .error e => .error e
      | .ok k => .ok (k, g)) repos with
  | .error e => .error e
  | .ok keyed => .ok ((sortLe repoPairLe keyed).map (fun p => p.2))

/-- The aggregation pipeline: group scanned records by namespace, sort
each group by status priority (monitor.py lines 177-181), order the
groups by `repo_priority` (monitor.py lines 252-260). -/
def group_and_rank (scan : List (String × PyVal)) :
    Except PyError (List (String × List PyVal)) :=
  match exceptMap (fun g =>
      match sort_agents g.2 with
      | .error e => .error e
      | .ok s => .ok (g.1, s)) (groupByRepo scan) with
  | .error e => .error e
  | .ok repos => sorted_repos repos

/-! ### report.py — the write path -/

/-- report.py line 38: the set of accepted status values. -/
def VALID_STATUSES : List String := ["running", "waiting_input", "idle", "error"]

/-- report.py lines 82-91: the dict serialised into the status file.  The
`path` key is included only when `path` is truthy (`if path:`), and
`updated_at` is the writer's current UTC time rendered to ISO text
(modelled by the explicit parameter `now`). -/
def record_payload (repo worktree status summary : String) (path : Option String)
    (now : String) : PyVal :=
  .dict ([("repo", .str repo), ("worktree", .str worktree), ("status", .str status),
          ("summary", .str summary), ("updated_at", .str now)] ++
         (match path with
          | Option.some p => if p == "" then [] else [("path", .str p)]
          | Option.none => []))

/-- A filesystem side effect of the writer.  Paths inside the status root
are a directory component plus a file name (`""` as the directory denotes
the status root itself).  `rename` is the atomic-replace operation the
specification describes; it is listed so that the atomicity property can
be stated, and the modelled code never emits it. -/
inductive FsOp where
  | mkdirp (dir : String)
  | writeFile (dir fname : String) (data : PyVal) (mtime : Nat)
  | rename (fromDir fromName toDir toName : String)

/-- report.py `report_status` (lines 48-96) as the sequence of filesystem
operations it performs: validate the status (raising `ValueError` before
touching the store), `mkdir -p` the repo directory, then serialise the
record with a single direct `open(status_file, "w")` + `json.dump` onto
the final location.  `wmtime` is the last-modified time the written file
ends up with. -/
def report_status_ops (worktree status summary repo : String) (path : Option String)
    (now : String) (wmtime : Nat) : Except PyError (List FsOp) :=
  if !VALID_STATUSES.contains status then .error .valueError
  else
    .ok [FsOp.mkdirp repo,
         FsOp.writeFile repo (worktree ++ ".json")
           (record_payload repo worktree status summary path now) wmtime]

/-- Create or replace a file inside a directory's file list (a replaced
name keeps its position, a new name is appended at the end of the
enumeration). -/
def dirSetFile : List (String × PFile) → String → PFile → List (String × PFile)
  | [], fname, f => [(fname, f)]
  | (n1, f1) :: rest, fname, f =>
    if n1 = fname then (n1, f) :: rest else (n1, f1) :: dirSetFile rest fname f

/-- Whether the filesystem has a directory entry with the given name. -/
def fsHasDir (fs : FS) (d : String) : Bool :=
  fs.any (fun e =>
    match e with
    | .dir n _ => n == d
    | .file _ _ => false)

/-- Apply `mkdir(parents=True, exist_ok=True)` for a repo directory. -/
def fsMkdirp (fs : FS) (d : String) : FS :=
  if fsHasDir fs d then fs else fs ++ [.dir d []]

/-- Write a file at `<root>/<d>/<fname>` (the directory is guaranteed to
exist by the preceding `mkdirp`; a fresh one is appended otherwise). -/
def fsWriteFile : FS → String → String → PFile → FS
  | [], d, fname, f => [.dir d [(fname, f)]]
  | .dir n files :: rest, d, fname, f =>
    if n = d then .dir n (dirSetFile files fname f) :: rest
    else .dir n files :: fsWriteFile rest d fname f
  | e :: rest, d, fname, f => e :: fsWriteFile rest d fname f

/-- Apply one writer operation to the filesystem state. -/
def applyFsOp (fs : FS) : FsOp → FS
  | .mkdirp d => fsMkdirp fs d
  | .writeFile d fname data m => fsWriteFile fs d fname ⟨Option.some data, m⟩
  | .rename _ _ _ _ => fs

/-- `report_status` as a state transformer on the store: the effect of the
operation trace on the filesystem. -/
def report_status (fs : FS) (worktree status summary repo : String) (path : Option String)
    (now : String) (wmtime : Nat) : Except PyError FS :=
  match report_status_ops worktree status summary repo path now wmtime with
  | .error e => .error e
  | .ok ops => .ok (ops.foldl applyFsOp fs)

/-- Whether `<root>/<repo>/<fname>` exists (`status_file.exists()`): only
a real subdirectory can hold it, a top-level file named `repo` cannot. -/
def fsHasDirFile (fs : FS) (repo fname : String) : Bool :=
  fs.any (fun e =>
    match e with
    | .dir n files => n == repo && files.any (fun p => p.1 == fname)
    | .file _ _ => false)

/-- Remove `<repo>/<fname>` and garbage-collect the directory if that
left it empty (report.py lines 120-126, acting on the first — in a real
filesystem the only — directory named `repo`). -/
def clearUpdate : FS → String → String → FS
  | [], _, _ => []
  | .dir n files :: rest, repo, fname =>
    if n = repo then
      let files1 := files.eraseP (fun p => p.1 == fname)
      if files1.isEmpty then rest else .dir n files1 :: rest
    else .dir n files :: clearUpdate rest repo fname
  | e :: rest, repo, fname => e :: clearUpdate rest repo fname

/-- report.py `clear_status` (lines 99-127): if the status file exists,
unlink it, remove the repo directory when it ended up empty, and report
whether something was removed.  Clearing an absent key touches nothing. -/
def clear_status (fs : FS) (worktree repo : String) : FS × Bool :=
  let fname := worktree ++ ".json"
  if fsHasDirFile fs repo fname then (clearUpdate fs repo fname, true)
  else (fs, false)

/-! ### monitor.py — the refresh loop

`run_dashboard` (lines 371-394) renders, then loops: poll the keyboard
without blocking, break on `q`, re-scan, re-render, `time.sleep` a full
refresh period.  Only `KeyboardInterrupt` is caught (line 391); any other
exception escaping a tick propagates out of the loop and the process. -/

/-- The input of one loop iteration: the key available to the non-blocking
poll, and the outcome of that tick's `get_all_agents`. -/
structure Tick where
  key : Option Char
  scan : Except PyError ReposAcc

/-- How a run of the refresh loop ends. -/
inductive LoopOutcome where
  | quitKey
  | interrupted
  | crashed (e : PyError)
  | exhausted
deriving DecidableEq

/-- monitor.py line 385: `if key and key.lower() == 'q'`. -/
def key_is_quit : Option Char → Bool
  | Option.some c => c.toLower == 'q'
  | Option.none => false

/-- The `while True:` body of `run_dashboard` over a schedule of tick
inputs: returns how the loop ended and how many frames it rendered.  A
raising `get_all_agents` ends the loop — `KeyboardInterrupt` is absorbed
by line 391's handler, every other exception propagates (crashes). -/
def dash_loop : List Tick → Nat → LoopOutcome × Nat
  | [], frames => (.exhausted, frames)
  | t :: ts, frames =>
    if key_is_quit t.key then (.quitKey, frames)
    else
      match t.scan with
      | .error e =>
        if e = .keyboardInterrupt then (.interrupted, frames) else (.crashed e, frames)
      | .ok _ => dash_loop ts (frames + 1)

/-- One blocking step of a loop iteration, with the time it blocks while
remaining deaf to the polled cancel key. -/
inductive WaitOp where
  | pollCancel
  | readAndRender
  | sleepFull (d : ℚ)
deriving DecidableEq

/-- The blocking structure of one iteration of `run_dashboard`'s loop
(lines 382-390): a zero-timeout `select` poll for the cancel key, the
read/render work, then a single `time.sleep(refresh_rate)` that does not
observe the cancel key at all. -/
def loop_iteration_ops (refresh_rate : ℚ) : List WaitOp :=
  [.pollCancel, .readAndRender, .sleepFull refresh_rate]

/-- How long an iteration step blocks without polling the cancel key: the
poll itself is instantaneous (`select` timeout 0) and the read/render work
is idealised to zero; the sleep blocks for its full duration. -/
def uninterruptible_for : WaitOp → ℚ
  | .pollCancel => 0
  | .readAndRender => 0
  | .sleepFull d => d

/-- Timing model of the loop's reaction to the cancel key: iteration
polls happen at times `0, r, 2r, …` (work between poll and sleep
idealised to zero); a key pressed at time `press` is seen by the first
poll at or after it, and the loop then stops.  `fuel` bounds the number
of iterations simulated. -/
def loop_stop_from (r press : ℚ) : ℚ → Nat → Option ℚ
  | _, 0 => Option.none
  | t, fuel + 1 => if press ≤ t then Option.some t else loop_stop_from r press (t + r) fuel

/-! ### Helper functions for theorem statements -/

/-- Total extraction of an agent's sort key (coincides with
`agent_sort_key` whenever the key computation succeeds; used only to
state theorems). -/
def agent_key_default (a : PyVal) : Nat :=
  match agent_sort_key a with
  | .ok k => k
  | .error _ => 0

/-- Total extraction of a group's repo key (coincides with
`repo_priority` whenever the key computation succeeds; used only to
state theorems). -/
def repo_key_default (g : String × List PyVal) : RepoKey :=
  match repo_priority g.2 g.1 with
  | .ok k => k
  | .error _ => (false, false, false, "")

/-- Whether a decoded record (a dict) carries the given key. -/
def pyHasKey (r : PyVal) (k : String) : Bool :=
  match r with
  | .dict fields => fields.any (fun p => p.1 == k)
  | _ => false

/-- The records a scan assigns to one namespace, in scan order. -/
def namespace_records (scan : List (String × PyVal)) (n : String) : List PyVal :=
  (scan.filter (fun p => p.1 == n)).map (fun p => p.2)

/-- The record list a grouped structure holds for a namespace (empty when
the namespace is absent; used only to state theorems). -/
def groupVal : List (String × List PyVal) → String → List PyVal
  | [], _ => []
  | g :: rest, n => if g.1 = n then g.2 else groupVal rest n

/-- Modelled from the claim's words: the priority table in which every
state value outside the four enumerated ones — `"unknown"` included —
maps to the UNKNOWN priority 4. -/
def spec_status_priority (s : String) : Nat :=
  match s with
  | "waiting_input" => 0
  | "running" => 1
  | "error" => 2
  | "idle" => 3
  | _ => 4

/-- Modelled from the claim's words: the within-namespace order the claim
predicts — a stable sort of the records by `spec_status_priority` of
their state, ties keeping scan order. -/
def spec_sort_agents (agents : List PyVal) : List PyVal :=
  (sortLe natPairLe (agents.map (fun a =>
    (match pyGetD a "status" (.str "unknown") with
     | .ok (.str s) => spec_status_priority s
     | _ => 4, a)))).map (fun p => p.2)

/-- Modelled from the spec's words ("serialize to a temporary sibling
location, then perform a single atomic rename/replace onto the final
location"): a write trace is atomic-via-rename for a final location iff
no write targets the final location directly and some rename of a sibling
lands on it. -/
def spec_atomic_rename_write (ops : List FsOp) (dir fname : String) : Prop :=
  (∀ op ∈ ops, ∀ d f data m, op = FsOp.writeFile d f data m → ¬(d = dir ∧ f = fname)) ∧
  (∃ td tf, (td ≠ dir ∨ tf ≠ fname) ∧ FsOp.rename td tf dir fname ∈ ops)

/-- Totality of a boolean comparison. -/
def LeTotal (le : α → α → Bool) : Prop := ∀ a b, le a b = true ∨ le b a = true

/-- Transitivity of a boolean comparison. -/
def LeTrans (le : α → α → Bool) : Prop :=
  ∀ a b c, le a b = true → le b c = true → le a c = true

/-! ### Lemmas: effectful iteration -/

theorem exceptMap_ok_forall₂ {α β : Type} {f : α → Except PyError β} :
    ∀ {l : List α} {l' : List β}, exceptMap f l = .ok l' →
      List.Forall₂ (fun a b => f a = .ok b) l l' := by
  intro l
  induction l with
  | nil =>
    intro l' h
    simp only [exceptMap, Except.ok.injEq] at h
    subst h
    exact List.Forall₂.nil
  | cons a as ih =>
    intro l' h
    simp only [exceptMap] at h
    cases hfa : f a with
    | error e => rw [hfa] at h; exact absurd h (by simp)
    | ok b =>
      rw [hfa] at h
      cases hm : exceptMap f as with
      | error e => rw [hm] at h; exact absurd h (by simp)
      | ok bs =>
        rw [hm] at h
        simp only [Except.ok.injEq] at h
        subst h
        exact List.Forall₂.cons hfa (ih hm)

theorem exceptMap_of_forall {α β : Type} {f : α → Except PyError β} {g : α → β} :
    ∀ {l : List α}, (∀ a ∈ l, f a = .ok (g a)) → exceptMap f l = .ok (l.map g) := by
  intro l
  induction l with
  | nil => intro _; rfl
  | cons a as ih =>
    intro h
    have ha := h a (by simp)
    have has := ih (fun x hx => h x (by simp [hx]))
    simp only [exceptMap, ha, has, List.map_cons]

theorem exceptAny_of_forall {α : Type} {f : α → Except PyError Bool} {g : α → Bool} :
    ∀ {l : List α}, (∀ a ∈ l, f a = .ok (g a)) → exceptAny f l = .ok (l.any g) := by
  intro l
  induction l with
  | nil => intro _; rfl
  | cons a as ih =>
    intro h
    have ha := h a (by simp)
    have has := ih (fun x hx => h x (by simp [hx]))
    cases hga : g a with
    | true => simp only [exceptAny, ha, hga, List.any_cons, Bool.true_or]
    | false => simp only [exceptAny, ha, hga, List.any_cons, Bool.false_or, has]

/-! ### Lemmas: the stable insertion sort -/

theorem insertLe_perm (le : α → α → Bool) (x : α) :
    ∀ l : List α, insertLe le x l ~ x :: l := by
  intro l
  induction l with
  | nil => exact List.Perm.refl _
  | cons y ys ih =>
    simp only [insertLe]
    by_cases h : le x y = true
    · rw [if_pos h]
    · rw [if_neg h]
      exact (ih.cons y).trans (List.Perm.swap x y ys)

theorem sortLe_perm (le : α → α → Bool) : ∀ l : List α, sortLe le l ~ l := by
  intro l
  induction l with
  | nil => exact List.Perm.refl _
  | cons x xs ih => exact (insertLe_perm le x (sortLe le xs)).trans (ih.cons x)

theorem insertLe_pairwise {le : α → α → Bool} (htot : LeTotal le) (htrans : LeTrans le)
    (x : α) : ∀ {l : List α}, l.Pairwise (fun a b => le a b = true) →
      (insertLe le x l).Pairwise (fun a b => le a b = true) := by
  intro l
  induction l with
  | nil => intro _; exact List.pairwise_singleton _ _
  | cons y ys ih =>
    intro hp
    rcases List.pairwise_cons.mp hp with ⟨hy, hys⟩
    simp only [insertLe]
    by_cases h : le x y = true
    · rw [if_pos h]
      refine List.pairwise_cons.mpr ⟨?_, hp⟩
      intro b hb
      rcases List.mem_cons.mp hb with rfl | hb
      · exact h
      · exact htrans x y b h (hy b hb)
    · rw [if_neg h]
      refine List.pairwise_cons.mpr ⟨?_, ih hys⟩
      intro b hb
      rcases List.mem_cons.mp ((insertLe_perm le x ys).mem_iff.mp hb) with heq | hb
      · rw [heq]
        rcases htot x y with hxy | hyx
        · exact absurd hxy h
        · exact hyx
      · exact hy b hb

theorem sortLe_pairwise {le : α → α → Bool} (htot : LeTotal le) (htrans : LeTrans le) :
    ∀ l : List α, (sortLe le l).Pairwise (fun a b => le a b = true) := by
  intro l
  induction l with
  | nil => exact List.Pairwise.nil
  | cons x xs ih => exact insertLe_pairwise htot htrans x ih

theorem insertLe_filter {le : α → α → Bool} {q : α → Bool} {x : α}
    (hq : q x = true → ∀ y, le x y = false → q y = false) :
    ∀ l : List α, (insertLe le x l).filter q = ((x :: l).filter q : List α) := by
  intro l
  induction l with
  | nil => rfl
  | cons y ys ih =>
    simp only [insertLe]
    by_cases h : le x y = true
    · rw [if_pos h]
    · rw [if_neg h]
      by_cases hqx : q x = true
      · have hqy : q y = false := hq hqx y (by rwa [Bool.not_eq_true] at h)
        simp only [List.filter_cons, hqy, hqx, if_true, if_false, Bool.false_eq_true, ih]
      · have hqx' : q x = false := by rwa [Bool.not_eq_true] at hqx
        simp only [List.filter_cons, hqx', Bool.false_eq_true, if_false, ih]

theorem sortLe_filter {le : α → α → Bool} {q : α → Bool}
    (hq : ∀ x, q x = true → ∀ y, le x y = false → q y = false) :
    ∀ l : List α, (sortLe le l).filter q = l.filter q := by
  intro l
  induction l with
  | nil => rfl
  | cons x xs ih =>
    simp only [sortLe]
    rw [insertLe_filter (hq x)]
    simp only [List.filter_cons, ih]

theorem sorted_perm_eq_of_nodup_keys {κ : Type} {le : α → α → Bool} {kf : α → κ}
    (hanti : ∀ a b, le a b = true → le b a = true → kf a = kf b) :
    ∀ {l1 l2 : List α}, l1 ~ l2 → l1.Pairwise (fun a b => le a b = true) →
      l2.Pairwise (fun a b => le a b = true) → (l1.map kf).Nodup → l1 = l2 := by
  intro l1
  induction l1 with
  | nil =>
    intro l2 hperm _ _ _
    exact List.Perm.nil_eq hperm
  | cons a t1 ih =>
    intro l2 hperm hs1 hs2 hnd
    cases l2 with
    | nil => exact absurd (List.Perm.eq_nil hperm) (by simp)
    | cons b t2 =>
      have hab : a = b := by
        by_contra hne
        have hbmem : b ∈ a :: t1 := hperm.mem_iff.mpr (by simp)
        have hamem : a ∈ b :: t2 := hperm.mem_iff.mp (by simp)
        have hb1 : b ∈ t1 := by
          rcases List.mem_cons.mp hbmem with h | h
          · exact absurd h.symm hne
          · exact h
        have ha2 : a ∈ t2 := by
          rcases List.mem_cons.mp hamem with h | h
          · exact absurd h hne
          · exact h
        have h1 : le a b = true := (List.pairwise_cons.mp hs1).1 b hb1
        have h2 : le b a = true := (List.pairwise_cons.mp hs2).1 a ha2
        have hk : kf a = kf b := hanti a b h1 h2
        have hmem : kf a ∈ t1.map kf := by
          rw [hk]
          exact List.mem_map_of_mem kf hb1
        exact (List.nodup_cons.mp (by simpa using hnd)).1 hmem
      subst hab
      have ht : t1 ~ t2 := (List.perm_cons a).mp hperm
      have := ih ht (List.pairwise_cons.mp hs1).2 (List.pairwise_cons.mp hs2).2
        (by simpa using (List.nodup_cons.mp (by simpa using hnd)).2)
      rw [this]

/-! ### Lemmas: the concrete comparisons -/

theorem char_toNat_inj {a b : Char} (h : a.toNat = b.toNat) : a = b := by
  cases a
  cases b
  congr 1
  exact UInt32.ext h

theorem charListLe_total : ∀ as bs : List Char,
    charListLe as bs = true ∨ charListLe bs as = true := by
  intro as
  induction as with
  | nil => intro bs; left; rfl
  | cons a as ih =>
    intro bs
    cases bs with
    | nil => right; rfl
    | cons b bs =>
      simp only [charListLe]
      rcases Nat.lt_trichotomy a.toNat b.toNat with hlt | heq | hgt
      · left
        rw [if_pos hlt]
      · rw [if_neg (by omega), if_neg (by omega), if_neg (by omega), if_neg (by omega)]
        exact ih bs
      · right
        rw [if_pos hgt]

theorem charListLe_trans : ∀ as bs cs : List Char, charListLe as bs = true →
    charListLe bs cs = true → charListLe as cs = true := by
  intro as
  induction as with
  | nil => intro bs cs _ _; rfl
  | cons a as ih =>
    intro bs cs h1 h2
    cases bs with
    | nil => simp [charListLe] at h1
    | cons b bs =>
      cases cs with
      | nil => simp [charListLe] at h2
      | cons c cs =>
        simp only [charListLe] at h1 h2 ⊢
        by_cases hab : a.toNat < b.toNat <;> by_cases hba : b.toNat < a.toNat <;>
          by_cases hbc : b.toNat < c.toNat <;> by_cases hcb : c.toNat < b.toNat <;>
          first
          | omega
          | (rw [if_pos (by omega)])
          | (rw [if_neg (by omega), if_neg (by omega)]
             rw [if_neg hab, if_neg hba] at h1
             rw [if_neg hbc, if_neg hcb] at h2
             exact ih bs cs h1 h2)
          | (exfalso
             rw [if_neg hab, if_pos hba] at h1
             exact Bool.false_ne_true h1)
          | (exfalso
             rw [if_neg hbc, if_pos hcb] at h2
             exact Bool.false_ne_true h2)

theorem charListLe_antisymm : ∀ as bs : List Char, charListLe as bs = true →
    charListLe bs as = true → as = bs := by
  intro as
  induction as with
  | nil =>
    intro bs h1 h2
    cases bs with
    | nil => rfl
    | cons b bs => simp [charListLe] at h2
  | cons a as ih =>
    intro bs h1 h2
    cases bs with
    | nil => simp [charListLe] at h1
    | cons b bs =>
      simp only [charListLe] at h1 h2
      by_cases hab : a.toNat < b.toNat
      · exfalso
        rw [if_neg (by omega), if_pos hab] at h2
        exact Bool.false_ne_true h2
      · by_cases hba : b.toNat < a.toNat
        · exfalso
          rw [if_neg hab, if_pos hba] at h1
          exact Bool.false_ne_true h1
        · have heq : a = b := char_toNat_inj (by omega)
          rw [if_neg hab, if_neg hba] at h1
          rw [if_neg hba, if_neg hab] at h2
          rw [heq, ih bs h1 h2]

theorem strLe_total : LeTotal strLe := by
  intro s t
  exact charListLe_total s.data t.data

theorem strLe_trans : LeTrans strLe := by
  intro s t u h1 h2
  exact charListLe_trans s.data t.data u.data h1 h2

theorem strLe_antisymm : ∀ s t : String, strLe s t = true → strLe t s = true → s = t := by
  intro s t h1 h2
  cases s
  cases t
  congr 1
  exact charListLe_antisymm _ _ h1 h2

theorem boolLe_total : LeTotal boolLe := by
  intro x y
  cases x <;> cases y <;> simp [boolLe]

theorem boolLe_trans : LeTrans boolLe := by
  intro a b c h1 h2
  cases a <;> cases b <;> cases c <;> simp_all [boolLe]

theorem boolLe_antisymm : ∀ x y : Bool, boolLe x y = true → boolLe y x = true → x = y := by
  intro x y h1 h2
  cases x <;> cases y <;> simp_all [boolLe]

theorem lexLe_total [DecidableEq α] {le1 : α → α → Bool} {le2 : β → β → Bool}
    (h1 : LeTotal le1) (h2 : LeTotal le2) : LeTotal (lexLe le1 le2) := by
  intro p q
  simp only [lexLe]
  by_cases he : p.1 = q.1
  · rw [if_pos he, if_pos he.symm]
    exact h2 p.2 q.2
  · rw [if_neg he, if_neg (Ne.symm he)]
    exact h1 p.1 q.1

theorem lexLe_trans [DecidableEq α] {le1 : α → α → Bool} {le2 : β → β → Bool}
    (h1t : LeTrans le1) (h1a : ∀ a b, le1 a b = true → le1 b a = true → a = b)
    (h2t : LeTrans le2) : LeTrans (lexLe le1 le2) := by
  intro p q r hpq hqr
  simp only [lexLe] at hpq hqr ⊢
  by_cases hpq1 : p.1 = q.1 <;> by_cases hqr1 : q.1 = r.1
  · rw [if_pos hpq1] at hpq
    rw [if_pos hqr1] at hqr
    rw [if_pos (hpq1.trans hqr1)]
    exact h2t _ _ _ hpq hqr
  · rw [if_pos hpq1] at hpq
    rw [if_neg hqr1] at hqr
    have : p.1 ≠ r.1 := fun h => hqr1 (hpq1 ▸ h)
    rw [if_neg this, hpq1]
    exact hqr
  · rw [if_neg hpq1] at hpq
    rw [if_pos hqr1] at hqr
    have : p.1 ≠ r.1 := fun h => hpq1 (h.trans hqr1.symm)
    rw [if_neg this, ← hqr1]
    exact hpq
  · rw [if_neg hpq1] at hpq
    rw [if_neg hqr1] at hqr
    by_cases hpr1 : p.1 = r.1
    · exfalso
      rw [← hpr1] at hqr
      exact hpq1 (h1a p.1 q.1 hpq hqr)
    · rw [if_neg hpr1]
      exact h1t _ _ _ hpq hqr

theorem lexLe_antisymm [DecidableEq α] {le1 : α → α → Bool} {le2 : β → β → Bool}
    (h1a : ∀ a b, le1 a b = true → le1 b a = true → a = b)
    (h2a : ∀ a b, le2 a b = true → le2 b a = true → a = b) :
    ∀ p q : α × β, lexLe le1 le2 p q = true → lexLe le1 le2 q p = true → p = q := by
  intro p q hpq hqp
  simp only [lexLe] at hpq hqp
  by_cases he : p.1 = q.1
  · rw [if_pos he] at hpq
    rw [if_pos he.symm] at hqp
    exact Prod.ext he (h2a _ _ hpq hqp)
  · rw [if_neg he] at hpq
    rw [if_neg (Ne.symm he)] at hqp
    exact absurd (h1a _ _ hpq hqp) he

theorem repoKeyLe_total : LeTotal repoKeyLe :=
  lexLe_total boolLe_total (lexLe_total boolLe_total (lexLe_total boolLe_total strLe_total))

theorem repoKeyLe_trans : LeTrans repoKeyLe :=
  lexLe_trans boolLe_trans boolLe_antisymm
    (lexLe_trans boolLe_trans boolLe_antisymm
      (lexLe_trans boolLe_trans boolLe_antisymm strLe_trans))

theorem repoKeyLe_antisymm : ∀ k1 k2 : RepoKey, repoKeyLe k1 k2 = true →
    repoKeyLe k2 k1 = true → k1 = k2 :=
  lexLe_antisymm boolLe_antisymm
    (lexLe_antisymm boolLe_antisymm (lexLe_antisymm boolLe_antisymm strLe_antisymm))

theorem natPairLe_total : LeTotal natPairLe := by
  intro p q
  simp only [natPairLe, decide_eq_true_eq]
  omega

theorem natPairLe_trans : LeTrans natPairLe := by
  intro p q r h1 h2
  simp only [natPairLe, decide_eq_true_eq] at h1 h2 ⊢
  omega

theorem natPairLe_antisymm_fst : ∀ p q : Nat × PyVal,
    natPairLe p q = true → natPairLe q p = true → p.1 = q.1 := by
  intro p q h1 h2
  simp only [natPairLe, decide_eq_true_eq] at h1 h2
  omega

/-! ### Lemmas: file names and globbing -/

theorem matchesJsonGlob_append (w : String) : matchesJsonGlob (w ++ ".json") = true := by
  simp only [matchesJsonGlob, decide_eq_true_eq, String.data_append]
  exact List.suffix_append _ _

/-! ### Claim C1 — atomicity of `write` -/

/-- Claim C1 as stated is false: `report_status` does not write via a
temporary sibling plus rename.  At a concrete call the operation trace is
a `mkdir` followed by a single direct serialisation onto the final
location, which violates the atomic-rename-write discipline the claim
describes (the trace writes the final location directly and contains no
rename). -/
theorem C1_not_atomic_counterexample :
    report_status_ops "w1" "running" "s" "repoA" Option.none "T0" 3 =
      .ok [FsOp.mkdirp "repoA",
           FsOp.writeFile "repoA" "w1.json"
             (record_payload "repoA" "w1" "running" "s" Option.none "T0") 3] ∧
    ¬ spec_atomic_rename_write
        [FsOp.mkdirp "repoA",
         FsOp.writeFile "repoA" "w1.json"
           (record_payload "repoA" "w1" "running" "s" Option.none "T0") 3]
        "repoA" "w1.json" := by
  refine ⟨rfl, fun h => ?_⟩
  exact h.1 (FsOp.writeFile "repoA" "w1.json"
      (record_payload "repoA" "w1" "running" "s" Option.none "T0") 3)
    (by simp) "repoA" "w1.json" _ 3 rfl ⟨rfl, rfl⟩

/-- Claim C1 amended: for every call with a valid status,
`report_status` persists the record by a single direct in-place write
(`open(status_file, "w")` + `json.dump`) onto the final location, after
creating the namespace directory; no temporary sibling location and no
rename/replace are involved, so rename atomicity against concurrent
readers is not provided. -/
theorem C1_direct_write (worktree status summary repo : String) (path : Option String)
    (now : String) (wmtime : Nat) (h : VALID_STATUSES.contains status = true) :
    report_status_ops worktree status summary repo path now wmtime =
      .ok [FsOp.mkdirp repo,
           FsOp.writeFile repo (worktree ++ ".json")
             (record_payload repo worktree status summary path now) wmtime] ∧
    ∀ ops, report_status_ops worktree status summary repo path now wmtime = .ok ops →
      ¬ spec_atomic_rename_write ops repo (worktree ++ ".json") := by
  have hops : report_status_ops worktree status summary repo path now wmtime =
      .ok [FsOp.mkdirp repo,
           FsOp.writeFile repo (worktree ++ ".json")
             (record_payload repo worktree status summary path now) wmtime] := by
    simp only [report_status_ops, h]
    rfl
  refine ⟨hops, fun ops hops2 hatomic => ?_⟩
  rw [hops] at hops2
  have hops3 : ops = [FsOp.mkdirp repo,
      FsOp.writeFile repo (worktree ++ ".json")
        (record_payload repo worktree status summary path now) wmtime] := by
    injection hops2 with h2
    exact h2.symm
  subst hops3
  exact hatomic.1 (FsOp.writeFile repo (worktree ++ ".json")
      (record_payload repo worktree status summary path now) wmtime)
    (by simp) repo (worktree ++ ".json") _ wmtime rfl ⟨rfl, rfl⟩

/-- Witness for `C1_direct_write` at a concrete call. -/
theorem C1_direct_write_witness :
    report_status_ops "w2" "running" "" "r2" Option.none "T1" 5 =
      .ok [FsOp.mkdirp "r2",
           FsOp.writeFile "r2" "w2.json"
             (record_payload "r2" "w2" "running" "" Option.none "T1") 5] :=
  (C1_direct_write "w2" "running" "" "r2" Option.none "T1" 5 rfl).1

/-! ### Claim C2 — corrupt tolerance of `readAll` -/

/-- Claim C2 as stated is false: a store with one well-formed record and
one file whose content is the valid-JSON but malformed-as-a-record text
`5` makes `get_all_agents` raise `TypeError` (the backfill membership
test `"updated_at" not in data` is applied to an int), instead of
yielding the well-formed record. -/
theorem C2_raises_on_nondict_counterexample :
    get_all_agents [Entry.dir "A"
        [("w1.json", ⟨Option.some (record_payload "A" "w1" "idle" "" Option.none "T0"), 3⟩),
         ("bad.json", ⟨Option.some (.int 5), 4⟩)]] = .error .typeError ∧
    ∀ out, get_all_agents [Entry.dir "A"
        [("w1.json", ⟨Option.some (record_payload "A" "w1" "idle" "" Option.none "T0"), 3⟩),
         ("bad.json", ⟨Option.some (.int 5), 4⟩)]] ≠ .ok out := by
  refine ⟨rfl, fun out h => ?_⟩
  rw [show get_all_agents [Entry.dir "A"
        [("w1.json", ⟨Option.some (record_payload "A" "w1" "idle" "" Option.none "T0"), 3⟩),
         ("bad.json", ⟨Option.some (.int 5), 4⟩)]] = .error .typeError from rfl] at h
  exact absurd h (by simp)

/-- Claim C2 amended: `readAll` never raises because of an entry whose
content fails to parse as JSON (or cannot be read at all): a store with
one well-formed record and one unparseable file yields exactly the
well-formed record, whichever side of the scan the corrupt file is on.
(Content that parses to a truthy non-dict JSON value is the exception
documented by the counterexample.) -/
theorem C2_skips_unparseable (repo worktree status summary now : String) (m m2 : Nat)
    (path : Option String) :
    get_all_agents [Entry.dir repo
        [("w1.json", ⟨Option.some (record_payload repo worktree status summary path now), m⟩),
         ("bad.json", ⟨Option.none, m2⟩)]] =
      .ok [(.str repo, [record_payload repo worktree status summary path now])] ∧
    get_all_agents [Entry.dir repo
        [("bad.json", ⟨Option.none, m2⟩),
         ("w1.json", ⟨Option.some (record_payload repo worktree status summary path now), m⟩)]] =
      .ok [(.str repo, [record_payload repo worktree status summary path now])] :=
  ⟨rfl, rfl⟩

/-! ### Claim C3 — cancellation latency of the refresh loop -/

/-- Claim C3 as stated is false: the loop does block uninterruptibly for
a full configured period.  At refresh rate 1 the iteration contains the
single block `time.sleep(1)`, of duration exactly one full period, during
which the cancel key is not polled. -/
theorem C3_full_period_block_counterexample :
    ¬ (∀ op ∈ loop_iteration_ops 1, uninterruptible_for op < 1) := by
  intro h
  have h1 := h (WaitOp.sleepFull 1) (by simp [loop_iteration_ops])
  simp [uninterruptible_for] at h1

/-- Claim C3 amended: the cancel key is observed only by the non-blocking
poll at the top of an iteration; the inter-tick wait is one
uninterruptible `time.sleep` of the full refresh period, so a cancel
issued at time `press > 0` stops the loop at the next iteration boundary
— the first multiple of the refresh period at or after `press`, up to a
full period after the press, never at a sub-period polling slice. -/
theorem C3_cancel_latency (r press : ℚ) (fuel : Nat) (t : ℚ)
    (hr : 0 < r) (hp : 0 < press)
    (h : loop_stop_from r press 0 fuel = Option.some t) :
    press ≤ t ∧ t < press + r ∧ ∃ n : ℕ, t = n * r := by
  have main : ∀ (fuel : Nat) (t0 : ℚ), press > t0 - r → (∃ n : ℕ, t0 = n * r) →
      ∀ t1, loop_stop_from r press t0 fuel = Option.some t1 →
        press ≤ t1 ∧ t1 < press + r ∧ ∃ n : ℕ, t1 = n * r := by
    intro fuel
    induction fuel with
    | zero =>
      intro t0 _ _ t1 h1
      simp [loop_stop_from] at h1
    | succ fuel ih =>
      intro t0 hinv hmul t1 h1
      simp only [loop_stop_from] at h1
      by_cases hple : press ≤ t0
      · rw [if_pos hple] at h1
        have ht : t0 = t1 := by injection h1
        subst ht
        exact ⟨hple, by linarith, hmul⟩
      · rw [if_neg hple] at h1
        rcases hmul with ⟨n, rfl⟩
        exact ih (n * r + r) (by linarith) ⟨n + 1, by push_cast; ring⟩ t1 h1
  exact main fuel 0 (by linarith) ⟨0, by norm_num⟩ t h

/-- Witness for `C3_cancel_latency`: refresh period 1, cancel pressed at
time 1/2 during the first sleep, loop stops at time 1. -/
theorem C3_cancel_latency_witness :
    (1 : ℚ)/2 ≤ 1 ∧ (1 : ℚ) < 1/2 + 1 ∧ ∃ n : ℕ, (1 : ℚ) = n * 1 :=
  C3_cancel_latency 1 (1/2) 2 1 (by norm_num) (by norm_num)
    (by simp only [loop_stop_from]; norm_num)

/-! ### Claim C4 — read errors and the refresh loop -/

/-- Claim C4 as stated is false: when a tick's `get_all_agents` raises, the
loop does not proceed to the next tick.  With an `OSError` tick followed
by a well-formed tick, the loop ends crashed having rendered no further
frame; the claim predicts it would run both ticks to exhaustion. -/
theorem C4_crash_counterexample :
    dash_loop [⟨Option.none, .error .oSError⟩, ⟨Option.none, .ok []⟩] 0 =
      (LoopOutcome.crashed .oSError, 0) ∧
    dash_loop [⟨Option.none, .error .oSError⟩, ⟨Option.none, .ok []⟩] 0 ≠
      (LoopOutcome.exhausted, 2) := by
  refine ⟨rfl, ?_⟩
  rw [show dash_loop [⟨Option.none, .error .oSError⟩, ⟨Option.none, .ok []⟩] 0 =
      (LoopOutcome.crashed .oSError, 0) from rfl]
  simp

/-- Claim C4 amended: a tick whose `readAll` raises terminates the loop —
the exception propagates out of `run_dashboard` (crash) unless it is
`KeyboardInterrupt`, which the handler turns into a clean stop; only a
successful tick proceeds (rendering one more frame).  Per-entry corrupt
tolerance lives inside `readAll` itself, not in the loop. -/
theorem C4_read_error_terminates (ts : List Tick) (e : PyError) (n : Nat) (v : ReposAcc)
    (he : e ≠ PyError.keyboardInterrupt) :
    dash_loop (⟨Option.none, .error e⟩ :: ts) n = (LoopOutcome.crashed e, n) ∧
    dash_loop (⟨Option.none, .error PyError.keyboardInterrupt⟩ :: ts) n =
      (LoopOutcome.interrupted, n) ∧
    dash_loop (⟨Option.none, .ok v⟩ :: ts) n = dash_loop ts (n + 1) := by
  refine ⟨?_, rfl, rfl⟩
  simp [dash_loop, key_is_quit, he]

/-- Witness for `C4_read_error_terminates` at a concrete schedule. -/
theorem C4_read_error_terminates_witness :
    dash_loop [⟨Option.none, .error PyError.oSError⟩] 0 =
      (LoopOutcome.crashed PyError.oSError, 0) :=
  (C4_read_error_terminates [] PyError.oSError 0 [] (by decide)).1

/-! ### Claim C10 — namespace assignment on read -/

/-- Claim C10 confirmed: a record read from the nested layout gets its
`repo` field overwritten with the directory name, and is grouped under
the directory name regardless of the payload's own `repo` value; a flat
top-level record keeps its payload and is grouped by the payload's
`repo` value, defaulting to `"_default"` when absent. -/
theorem C10_namespace_assignment (dirname payloadRepo st u : String) (m : Nat) :
    get_all_agents [Entry.dir dirname
        [("w.json", ⟨Option.some (.dict [("repo", .str payloadRepo),
          ("status", .str st), ("updated_at", .str u)]), m⟩)]] =
      .ok [(.str dirname, [.dict [("repo", .str dirname),
        ("status", .str st), ("updated_at", .str u)]])] ∧
    get_all_agents [Entry.file "w.json" ⟨Option.some (.dict [("repo", .str payloadRepo),
        ("status", .str st), ("updated_at", .str u)]), m⟩] =
      .ok [(.str payloadRepo, [.dict [("repo", .str payloadRepo),
        ("status", .str st), ("updated_at", .str u)]])] ∧
    get_all_agents [Entry.file "w.json" ⟨Option.some (.dict [("status", .str st),
        ("updated_at", .str u)]), m⟩] =
      .ok [(.str "_default", [.dict [("status", .str st), ("updated_at", .str u)]])] :=
  ⟨rfl, rfl, rfl⟩

/-! ### Claim C9 — clear semantics -/

theorem clearUpdate_append (repo fname : String) :
    ∀ (fs1 rest : FS), (∀ e ∈ fs1, entryName e ≠ repo) →
      clearUpdate (fs1 ++ rest) repo fname = fs1 ++ clearUpdate rest repo fname := by
  intro fs1
  induction fs1 with
  | nil => intro rest _; rfl
  | cons e fs1 ih =>
    intro rest h
    have he : entryName e ≠ repo := h e (by simp)
    have hrec := ih rest (fun x hx => h x (by simp [hx]))
    cases e with
    | dir n files =>
      simp only [entryName] at he
      simp only [List.cons_append, clearUpdate, if_neg he, List.append_eq, hrec]
    | file n f =>
      simp only [List.cons_append, clearUpdate, List.append_eq, hrec]

/-- Claim C9 confirmed: clearing an absent key returns `false` and leaves
the store untouched (and raises nothing — `clear_status` is total);
clearing a present key removes exactly that one file, returns `true`,
and removes the namespace directory exactly when the removal empties
it. -/
theorem C9_clear (repo worktree : String) :
    (∀ fs : FS, fsHasDirFile fs repo (worktree ++ ".json") = false →
        clear_status fs worktree repo = (fs, false)) ∧
    (∀ (fs1 fs2 : FS) (files : List (String × PFile)),
        ((fs1 ++ Entry.dir repo files :: fs2).map entryName).Nodup →
        files.any (fun p => p.1 == worktree ++ ".json") = true →
        clear_status (fs1 ++ Entry.dir repo files :: fs2) worktree repo =
          (if (files.eraseP (fun p => p.1 == worktree ++ ".json")).isEmpty
           then fs1 ++ fs2
           else fs1 ++ Entry.dir repo
             (files.eraseP (fun p => p.1 == worktree ++ ".json")) :: fs2,
           true)) := by
  constructor
  · intro fs h
    simp only [clear_status, h, Bool.false_eq_true, if_false]
  · intro fs1 fs2 files hnd hmem
    have hhas : fsHasDirFile (fs1 ++ Entry.dir repo files :: fs2) repo
        (worktree ++ ".json") = true := by
      simp only [fsHasDirFile, List.any_append, List.any_cons]
      simp [hmem]
    have hnotin : ∀ e ∈ fs1, entryName e ≠ repo := by
      intro e he hcontra
      rw [List.map_append, List.map_cons] at hnd
      rcases List.nodup_append.mp hnd with ⟨_, _, hdisj⟩
      refine hdisj (List.mem_map_of_mem entryName he) ?_
      simp only [List.mem_cons]
      exact Or.inl hcontra
    have hupd : clearUpdate (fs1 ++ Entry.dir repo files :: fs2) repo
        (worktree ++ ".json") =
        (if (files.eraseP (fun p => p.1 == worktree ++ ".json")).isEmpty
         then fs1 ++ fs2
         else fs1 ++ Entry.dir repo
           (files.eraseP (fun p => p.1 == worktree ++ ".json")) :: fs2) := by
      rw [clearUpdate_append repo (worktree ++ ".json") fs1 _ hnotin]
      simp only [clearUpdate, if_pos rfl]
      by_cases hemp : (files.eraseP (fun p => p.1 == worktree ++ ".json")).isEmpty = true
      · simp [hemp]
      · simp [hemp]
    simp only [clear_status, hhas, if_true, hupd]

/-- Witness for `C9_clear`: the empty store, a store whose namespace
empties, and a store whose namespace retains another file. -/
theorem C9_clear_witness :
    clear_status [] "w" "A" = ([], false) ∧
    clear_status [Entry.dir "A" [("w.json", ⟨Option.none, 1⟩)]] "w" "A" = ([], true) ∧
    clear_status [Entry.dir "A" [("w.json", ⟨Option.none, 1⟩), ("x.json", ⟨Option.none, 2⟩)]]
        "w" "A" = ([Entry.dir "A" [("x.json", ⟨Option.none, 2⟩)]], true) := by
  refine ⟨(C9_clear "A" "w").1 [] rfl, ?_, ?_⟩
  · have h := (C9_clear "A" "w").2 [] [] [("w.json", ⟨Option.none, 1⟩)] (by simp) rfl
    simpa using h
  · have h := (C9_clear "A" "w").2 [] []
      [("w.json", ⟨Option.none, 1⟩), ("x.json", ⟨Option.none, 2⟩)] (by simp) rfl
    simpa using h

/-! ### Claim C8 — round trip and `updated_at` backfill -/

theorem dictSet_any_self : ∀ (fields : List (String × PyVal)) (k : String) (v : PyVal),
    (dictSet fields k v).any (fun p => p.1 == k) = true := by
  intro fields k v
  induction fields with
  | nil => simp [dictSet]
  | cons p rest ih =>
    rcases p with ⟨k1, v1⟩
    simp only [dictSet]
    by_cases h : k1 = k
    · rw [if_pos h]
      simp [h]
    · rw [if_neg h]
      simp [ih]

theorem dictSet_any_preserve : ∀ (fields : List (String × PyVal)) (k2 : String) (v : PyVal)
    (k : String), fields.any (fun p => p.1 == k) = true →
    (dictSet fields k2 v).any (fun p => p.1 == k) = true := by
  intro fields k2 v k
  induction fields with
  | nil => intro h; simp at h
  | cons p rest ih =>
    rcases p with ⟨k1, v1⟩
    intro h
    simp only [dictSet]
    by_cases h12 : k1 = k2
    · rw [if_pos h12]
      simpa using h
    · rw [if_neg h12]
      simp only [List.any_cons, Bool.or_eq_true] at h ⊢
      rcases h with h1 | h2
      · exact Or.inl h1
      · exact Or.inr (ih h2)

theorem backfill_ok_dict_has : ∀ (data : PyVal) (m : Nat) (fields1 : List (String × PyVal)),
    backfill_updated_at data m = .ok (.dict fields1) →
    fields1.any (fun p => p.1 == "updated_at") = true := by
  intro data m fields1 h
  cases data with
  | dict fields =>
    simp only [backfill_updated_at, pyContains] at h
    by_cases hc : fields.any (fun p => p.1 == "updated_at") = true
    · rw [hc] at h
      simp only [Except.ok.injEq, PyVal.dict.injEq] at h
      rw [← h]
      exact hc
    · rw [Bool.not_eq_true] at hc
      rw [hc] at h
      simp only [pySetItem, Except.ok.injEq, PyVal.dict.injEq] at h
      rw [← h]
      exact dictSet_any_self fields "updated_at" _
  | str s =>
    simp only [backfill_updated_at, pyContains] at h
    by_cases hc : strContains s "updated_at" = true
    · rw [hc] at h
      simp at h
    · rw [Bool.not_eq_true] at hc
      rw [hc] at h
      simp [pySetItem] at h
  | list xs =>
    simp only [backfill_updated_at, pyContains] at h
    by_cases hc : xs.any (fun x => PyVal.beq x (.str "updated_at")) = true
    · rw [hc] at h
      simp at h
    · rw [Bool.not_eq_true] at hc
      rw [hc] at h
      simp [pySetItem] at h
  | int n => simp [backfill_updated_at, pyContains] at h
  | bool b => simp [backfill_updated_at, pyContains] at h
  | none => simp [backfill_updated_at, pyContains] at h

theorem exceptMap_mem_right {α β : Type} {f : α → Except PyError β} :
    ∀ {l : List α} {l2 : List β}, exceptMap f l = .ok l2 → ∀ b ∈ l2, ∃ a ∈ l, f a = .ok b := by
  intro l
  induction l with
  | nil =>
    intro l2 h b hb
    simp only [exceptMap, Except.ok.injEq] at h
    subst h
    simp at hb
  | cons a as ih =>
    intro l2 h b hb
    simp only [exceptMap] at h
    cases hfa : f a with
    | error e => rw [hfa] at h; simp at h
    | ok b0 =>
      rw [hfa] at h
      cases hm : exceptMap f as with
      | error e => rw [hm] at h; simp at h
      | ok bs =>
        rw [hm] at h
        simp only [Except.ok.injEq] at h
        subst h
        rcases List.mem_cons.mp hb with rfl | hb2
        · exact ⟨a, by simp, hfa⟩
        · rcases ih hm b hb2 with ⟨a2, ha2, hfa2⟩
          exact ⟨a2, by simp [ha2], hfa2⟩

theorem sort_agents_mem {agents out : List PyVal} (h : sort_agents agents = .ok out) :
    ∀ r ∈ out, r ∈ agents := by
  intro r hr
  unfold sort_agents at h
  split at h
  · simp at h
  · rename_i keyed hm
    simp only [Except.ok.injEq] at h
    subst h
    rcases List.mem_map.mp hr with ⟨p, hp, rfl⟩
    have hpk : p ∈ keyed := (sortLe_perm natPairLe keyed).mem_iff.mp hp
    rcases exceptMap_mem_right hm p hpk with ⟨a, ha, hfa⟩
    cases hk : agent_sort_key a with
    | error e => rw [hk] at hfa; simp at hfa
    | ok k =>
      rw [hk] at hfa
      simp only [Except.ok.injEq] at hfa
      rw [← hfa]
      exact ha

theorem process_dir_file_mem {repo : String} {acc out : List PyVal} {f : PFile}
    (h : process_dir_file repo acc f = .ok out) :
    ∀ r ∈ out, r ∈ acc ∨ pyHasKey r "updated_at" = true := by
  intro r hr
  unfold process_dir_file at h
  split at h
  · simp only [Except.ok.injEq] at h
    subst h
    exact Or.inl hr
  · rename_i data hread
    split at h
    · split at h
      · simp at h
      · rename_i data1 hbf
        split at h
        · simp at h
        · rename_i data2 hset
          simp only [Except.ok.injEq] at h
          subst h
          rcases List.mem_append.mp hr with hr1 | hr2
          · exact Or.inl hr1
          · right
            have hrd : r = data2 := by simpa using hr2
            subst hrd
            cases data1 with
            | dict fields1 =>
              simp only [pySetItem, Except.ok.injEq] at hset
              rw [← hset]
              simp only [pyHasKey]
              exact dictSet_any_preserve fields1 "repo" _ "updated_at"
                (backfill_ok_dict_has data f.mtime fields1 hbf)
            | str s => simp [pySetItem] at hset
            | int n => simp [pySetItem] at hset
            | bool b => simp [pySetItem] at hset
            | none => simp [pySetItem] at hset
            | list xs => simp [pySetItem] at hset
    · simp only [Except.ok.injEq] at h
      subst h
      exact Or.inl hr

theorem dir_fold_mem {repo : String} :
    ∀ (files : List (String × PFile)) (acc out : List PyVal),
      exceptFoldl (fun acc2 (p : String × PFile) =>
        if matchesJsonGlob p.1 then process_dir_file repo acc2 p.2 else .ok acc2)
        acc files = .ok out →
      ∀ r ∈ out, r ∈ acc ∨ pyHasKey r "updated_at" = true := by
  intro files
  induction files with
  | nil =>
    intro acc out h r hr
    simp only [exceptFoldl, Except.ok.injEq] at h
    subst h
    exact Or.inl hr
  | cons p rest ih =>
    intro acc out h r hr
    simp only [exceptFoldl] at h
    split at h
    · simp at h
    · rename_i s1 heq
      have hstep : ∀ r2 ∈ s1, r2 ∈ acc ∨ pyHasKey r2 "updated_at" = true := by
        intro r2 hr2
        by_cases hg : matchesJsonGlob p.1 = true
        · rw [if_pos hg] at heq
          exact process_dir_file_mem heq r2 hr2
        · rw [if_neg hg] at heq
          simp only [Except.ok.injEq] at heq
          subst heq
          exact Or.inl hr2
      rcases ih s1 out h r hr with h1 | h2
      · exact hstep r h1
      · exact Or.inr h2

theorem mem_assocSetPy : ∀ (repos : ReposAcc) (k : PyVal) (v : List PyVal)
    (g : PyVal × List PyVal), g ∈ assocSetPy repos k v → g ∈ repos ∨ g.2 = v := by
  intro repos k v g
  induction repos with
  | nil =>
    intro h
    simp only [assocSetPy, List.mem_singleton] at h
    subst h
    exact Or.inr rfl
  | cons p rest ih =>
    intro h
    rcases p with ⟨k1, v1⟩
    simp only [assocSetPy] at h
    by_cases hk : pyKeyEq k1 k = true
    · rw [if_pos hk] at h
      rcases List.mem_cons.mp h with rfl | h2
      · exact Or.inr rfl
      · exact Or.inl (by simp [h2])
    · rw [if_neg hk] at h
      rcases List.mem_cons.mp h with rfl | h2
      · exact Or.inl (by simp)
      · rcases ih h2 with h3 | h3
        · exact Or.inl (by simp [h3])
        · exact Or.inr h3

theorem mem_assocAppendPy : ∀ (repos : ReposAcc) (k : PyVal) (d : PyVal)
    (g : PyVal × List PyVal) (r : PyVal), g ∈ assocAppendPy repos k d → r ∈ g.2 →
    (∃ g0 ∈ repos, r ∈ g0.2) ∨ r = d := by
  intro repos k d
  induction repos with
  | nil =>
    intro g r hg hr
    simp only [assocAppendPy, List.mem_singleton] at hg
    subst hg
    simp only [List.mem_singleton] at hr
    exact Or.inr hr
  | cons p rest ih =>
    intro g r hg hr
    rcases p with ⟨k1, v1⟩
    simp only [assocAppendPy] at hg
    by_cases hk : pyKeyEq k1 k = true
    · rw [if_pos hk] at hg
      rcases List.mem_cons.mp hg with rfl | h2
      · rcases List.mem_append.mp hr with h3 | h3
        · exact Or.inl ⟨(k1, v1), by simp, h3⟩
        · exact Or.inr (by simpa using h3)
      · exact Or.inl ⟨g, by simp [h2], hr⟩
    · rw [if_neg hk] at hg
      rcases List.mem_cons.mp hg with heq | h2
      · exact Or.inl ⟨(k1, v1), by simp, heq ▸ hr⟩
      · rcases ih g r h2 hr with ⟨g0, hg0, hrg0⟩ | h3
        · exact Or.inl ⟨g0, by simp [hg0], hrg0⟩
        · exact Or.inr h3

theorem process_entry_inv {repos repos2 : ReposAcc} {e : Entry}
    (h : process_entry repos e = .ok repos2)
    (hinv : ∀ g ∈ repos, ∀ r ∈ g.2, pyHasKey r "updated_at" = true) :
    ∀ g ∈ repos2, ∀ r ∈ g.2, pyHasKey r "updated_at" = true := by
  intro g hg r hr
  cases e with
  | dir name files =>
    simp only [process_entry] at h
    split at h
    · simp at h
    · rename_i agents hfold
      split at h
      · simp only [Except.ok.injEq] at h
        subst h
        exact hinv g hg r hr
      · split at h
        · simp at h
        · rename_i sorted hsort
          simp only [Except.ok.injEq] at h
          subst h
          rcases mem_assocSetPy repos (.str name) sorted g hg with h1 | h1
          · exact hinv g h1 r hr
          · rw [h1] at hr
            have hmemA := sort_agents_mem hsort r hr
            rcases dir_fold_mem files [] agents hfold r hmemA with h2 | h2
            · simp at h2
            · exact h2
  | file name f =>
    simp only [process_entry] at h
    split at h
    · split at h
      · simp only [Except.ok.injEq] at h
        subst h
        exact hinv g hg r hr
      · rename_i data hread
        split at h
        · split at h
          · simp at h
          · rename_i data1 hbf
            split at h
            · simp at h
            · rename_i repoName hget
              split at h
              · simp only [Except.ok.injEq] at h
                subst h
                rcases mem_assocAppendPy repos repoName data1 g r hg hr with ⟨g0, hg0, hrg0⟩ | hrd
                · exact hinv g0 hg0 r hrg0
                · rw [hrd]
                  cases data1 with
                  | dict fields1 =>
                    simp only [pyHasKey]
                    exact backfill_ok_dict_has data f.mtime fields1 hbf
                  | str s => simp [pyGetD] at hget
                  | int n => simp [pyGetD] at hget
                  | bool b => simp [pyGetD] at hget
                  | none => simp [pyGetD] at hget
                  | list xs => simp [pyGetD] at hget
              · simp at h
        · simp only [Except.ok.injEq] at h
          subst h
          exact hinv g hg r hr
    · simp only [Except.ok.injEq] at h
      subst h
      exact hinv g hg r hr

theorem entries_fold_inv : ∀ (fs : FS) (acc repos : ReposAcc),
    exceptFoldl process_entry acc fs = .ok repos →
    (∀ g ∈ acc, ∀ r ∈ g.2, pyHasKey r "updated_at" = true) →
    ∀ g ∈ repos, ∀ r ∈ g.2, pyHasKey r "updated_at" = true := by
  intro fs
  induction fs with
  | nil =>
    intro acc repos h hacc
    simp only [exceptFoldl, Except.ok.injEq] at h
    subst h
    exact hacc
  | cons e rest ih =>
    intro acc repos h hacc
    simp only [exceptFoldl] at h
    split at h
    · simp at h
    · rename_i s1 heq
      exact ih s1 repos h (process_entry_inv heq hacc)

theorem get_all_agents_has_updated_at {fs : FS} {out : ReposAcc}
    (h : get_all_agents fs = .ok out) :
    ∀ g ∈ out, ∀ r ∈ g.2, pyHasKey r "updated_at" = true := by
  intro g hg r hr
  unfold get_all_agents at h
  split at h
  · simp at h
  · rename_i repos hfold
    rcases exceptMap_mem_right h g hg with ⟨g0, hg0, hfg⟩
    split at hfg
    · simp at hfg
    · rename_i s hsort
      simp only [Except.ok.injEq] at hfg
      rw [← hfg] at hr
      have hr0 := sort_agents_mem hsort r hr
      exact entries_fold_inv fs [] repos hfold (by simp) g0 hg0 r hr0

theorem readAll_single_record (repo worktree status summary now fname : String)
    (path : Option String) (m : Nat) (hf : matchesJsonGlob fname = true) :
    get_all_agents [Entry.dir repo
      [(fname, ⟨Option.some (record_payload repo worktree status summary path now), m⟩)]] =
    .ok [(.str repo, [record_payload repo worktree status summary path now])] := by
  simp only [get_all_agents, exceptFoldl, process_entry, hf, if_true]
  rfl

theorem readAll_backfills (repo fname st : String) (m : Nat)
    (hf : matchesJsonGlob fname = true) :
    get_all_agents [Entry.dir repo [(fname, ⟨Option.some (.dict [("status", .str st)]), m⟩)]] =
      .ok [(.str repo, [.dict [("status", .str st), ("updated_at", .str (isoOfMtime m)),
        ("repo", .str repo)]])] := by
  simp only [get_all_agents, exceptFoldl, process_entry, hf, if_true]
  rfl

/-- Claim C8 confirmed: (i) writing a valid record into the empty store
and reading it back yields the record field for field (the reader
re-assigns `repo` to the directory name, which equals the written value);
(ii) a persisted entry lacking `updated_at` is backfilled from the file's
last-modified time; (iii) `readAll` never returns a record lacking
`updated_at`, on any store whatsoever. -/
theorem C8_round_trip_and_backfill :
    (∀ (worktree status summary repo now : String) (path : Option String) (m : Nat),
      VALID_STATUSES.contains status = true →
      report_status [] worktree status summary repo path now m =
        .ok [Entry.dir repo [(worktree ++ ".json",
          ⟨Option.some (record_payload repo worktree status summary path now), m⟩)]] ∧
      get_all_agents [Entry.dir repo [(worktree ++ ".json",
          ⟨Option.some (record_payload repo worktree status summary path now), m⟩)]] =
        .ok [(.str repo, [record_payload repo worktree status summary path now])]) ∧
    (∀ (repo fname st : String) (m : Nat), matchesJsonGlob fname = true →
      get_all_agents [Entry.dir repo [(fname, ⟨Option.some (.dict [("status", .str st)]), m⟩)]] =
        .ok [(.str repo, [.dict [("status", .str st), ("updated_at", .str (isoOfMtime m)),
          ("repo", .str repo)]])]) ∧
    (∀ (fs : FS) (out : ReposAcc), get_all_agents fs = .ok out →
      ∀ g ∈ out, ∀ r ∈ g.2, pyHasKey r "updated_at" = true) := by
  refine ⟨?_, fun repo fname st m hf => readAll_backfills repo fname st m hf,
    fun fs out h => get_all_agents_has_updated_at h⟩
  intro worktree status summary repo now path m h
  constructor
  · simp only [report_status, report_status_ops, h]
    simp [applyFsOp, fsMkdirp, fsHasDir, fsWriteFile, dirSetFile]
  · exact readAll_single_record repo worktree status summary now (worktree ++ ".json") path m
      (matchesJsonGlob_append worktree)

/-- Witness for `C8_round_trip_and_backfill` at a concrete record. -/
theorem C8_round_trip_witness :
    report_status [] "w" "running" "s" "A" Option.none "T9" 2 =
      .ok [Entry.dir "A" [("w.json",
        ⟨Option.some (record_payload "A" "w" "running" "s" Option.none "T9"), 2⟩)]] ∧
    get_all_agents [Entry.dir "A" [("w.json",
        ⟨Option.some (record_payload "A" "w" "running" "s" Option.none "T9"), 2⟩)]] =
      .ok [(.str "A", [record_payload "A" "w" "running" "s" Option.none "T9"])] :=
  C8_round_trip_and_backfill.1 "w" "running" "s" "A" "T9" Option.none 2 rfl

/-! ### Claim C6 — within-namespace ordering -/

theorem forall₂_keyed_struct :
    ∀ {l : List PyVal} {keyed : List (Nat × PyVal)},
      List.Forall₂ (fun a b => (match agent_sort_key a with
        | .error e => .error e
        | .ok k => .ok (k, a)) = Except.ok b) l keyed →
      keyed.map (fun p => p.2) = l ∧ ∀ p ∈ keyed, agent_sort_key p.2 = .ok p.1 := by
  intro l keyed h
  induction h with
  | nil => exact ⟨rfl, by simp⟩
  | cons ha hrest ih =>
    rename_i a b l2 keyed2
    cases hk : agent_sort_key a with
    | error e => rw [hk] at ha; simp at ha
    | ok k =>
      rw [hk] at ha
      simp only [Except.ok.injEq] at ha
      refine ⟨?_, ?_⟩
      · rw [List.map_cons, ih.1, ← ha]
      · intro p hp
        rcases List.mem_cons.mp hp with heq | hp2
        · rw [heq, ← ha]
          simpa using hk
        · exact ih.2 p hp2

theorem sort_agents_ok_struct {agents out : List PyVal} (h : sort_agents agents = .ok out) :
    ∃ keyed : List (Nat × PyVal),
      out = (sortLe natPairLe keyed).map (fun p => p.2) ∧
      keyed.map (fun p => p.2) = agents ∧
      (∀ p ∈ keyed, agent_sort_key p.2 = .ok p.1) := by
  unfold sort_agents at h
  split at h
  · simp at h
  · rename_i keyed hm
    simp only [Except.ok.injEq] at h
    have hs := forall₂_keyed_struct (exceptMap_ok_forall₂ hm)
    exact ⟨keyed, h.symm, hs.1, hs.2⟩

theorem status_priority_catch_all :
    ∀ s : String,
      s ∉ (["waiting_input", "running", "error", "idle", "unknown"] : List String) →
      status_priority s = 5 := by
  intro s hs
  simp only [status_priority]
  split <;> simp_all

theorem statusLabel_catch_all :
    ∀ s : String, s ∉ (["running", "waiting_input", "idle", "error"] : List String) →
      statusLabel s = "UNKNOWN" := by
  intro s hs
  simp only [statusLabel]
  split <;> simp_all

/-- Claim C6 as stated is false: an unlisted state value is not given the
UNKNOWN priority 4 by the sort — it gets the dict-miss default 5.  Two
records with states `"zzz"` and `"unknown"` would tie at priority 4 under
the claim and keep scan order; the code sorts the `"unknown"` record
first. -/
theorem C6_unknown_priority_counterexample :
    sort_agents [PyVal.dict [("worktree", .str "z1"), ("status", .str "zzz")],
                 PyVal.dict [("worktree", .str "z2"), ("status", .str "unknown")]] =
      .ok [PyVal.dict [("worktree", .str "z2"), ("status", .str "unknown")],
           PyVal.dict [("worktree", .str "z1"), ("status", .str "zzz")]] ∧
    spec_sort_agents [PyVal.dict [("worktree", .str "z1"), ("status", .str "zzz")],
                      PyVal.dict [("worktree", .str "z2"), ("status", .str "unknown")]] =
      [PyVal.dict [("worktree", .str "z1"), ("status", .str "zzz")],
       PyVal.dict [("worktree", .str "z2"), ("status", .str "unknown")]] ∧
    ([PyVal.dict [("worktree", .str "z2"), ("status", .str "unknown")],
      PyVal.dict [("worktree", .str "z1"), ("status", .str "zzz")]] : List PyVal) ≠
      [PyVal.dict [("worktree", .str "z1"), ("status", .str "zzz")],
       PyVal.dict [("worktree", .str "z2"), ("status", .str "unknown")]] := by
  refine ⟨rfl, rfl, ?_⟩
  intro hcontra
  simp at hcontra

/-- Claim C6 amended: within a namespace the records are stably sorted by
the priority `WAITING_INPUT(0) < RUNNING(1) < ERROR(2) < IDLE(3) <
"unknown"(4) < anything else(5)` — a missing state counts as `"unknown"`
(4), every state value outside the five listed ones gets the dict-miss
default 5, not 4 — with ties broken by original scan order; at display
time (not in the sort key) every state outside the four enumerated ones
is presented with the UNKNOWN config. -/
theorem C6_priority_and_stability (agents out : List PyVal)
    (h : sort_agents agents = .ok out) :
    List.Perm out agents ∧
    out.Pairwise (fun a b => agent_key_default a ≤ agent_key_default b) ∧
    (∀ p : Nat, out.filter (fun a => agent_key_default a == p) =
      agents.filter (fun a => agent_key_default a == p)) ∧
    (status_priority "waiting_input" = 0 ∧ status_priority "running" = 1 ∧
     status_priority "error" = 2 ∧ status_priority "idle" = 3 ∧
     status_priority "unknown" = 4 ∧
     agent_sort_key (PyVal.dict []) = .ok (status_priority "unknown")) ∧
    (∀ s : String,
      s ∉ (["waiting_input", "running", "error", "idle", "unknown"] : List String) →
      status_priority s = 5) ∧
    (∀ s : String, s ∉ (["running", "waiting_input", "idle", "error"] : List String) →
      statusLabel s = "UNKNOWN") := by
  rcases sort_agents_ok_struct h with ⟨keyed, hout, hsnd, hkeys⟩
  have hkeyfun : ∀ p ∈ keyed, agent_key_default p.2 = p.1 := by
    intro p hp
    simp only [agent_key_default, hkeys p hp]
  have hsortmem : ∀ p ∈ sortLe natPairLe keyed, p ∈ keyed := fun p hp =>
    (sortLe_perm natPairLe keyed).mem_iff.mp hp
  refine ⟨?_, ?_, ?_, ⟨rfl, rfl, rfl, rfl, rfl, rfl⟩,
    status_priority_catch_all, statusLabel_catch_all⟩
  · rw [hout, ← hsnd]
    exact (sortLe_perm natPairLe keyed).map _
  · rw [hout]
    rw [List.pairwise_map]
    refine List.Pairwise.imp_of_mem ?_ (sortLe_pairwise natPairLe_total natPairLe_trans keyed)
    intro p q hp hq hle
    rw [hkeyfun p (hsortmem p hp), hkeyfun q (hsortmem q hq)]
    simpa [natPairLe] using hle
  · intro p
    rw [hout, ← hsnd]
    rw [List.filter_map, List.filter_map]
    have hc1 : (sortLe natPairLe keyed).filter
        ((fun a => agent_key_default a == p) ∘ (fun q => q.2)) =
        (sortLe natPairLe keyed).filter (fun q => q.1 == p) := by
      apply List.filter_congr
      intro q hq
      simp only [Function.comp_apply, hkeyfun q (hsortmem q hq)]
    have hc2 : keyed.filter ((fun a => agent_key_default a == p) ∘ (fun q => q.2)) =
        keyed.filter (fun q => q.1 == p) := by
      apply List.filter_congr
      intro q hq
      simp only [Function.comp_apply, hkeyfun q hq]
    rw [hc1, hc2]
    congr 1
    apply sortLe_filter
    intro x hx y hxy
    simp only [natPairLe, decide_eq_false_iff_not] at hxy
    simp only [beq_iff_eq] at hx
    simp only [beq_eq_false_iff_ne, ne_eq]
    omega

/-- Witness for `C6_priority_and_stability` at a concrete sorted pair. -/
theorem C6_priority_and_stability_witness :
    List.Perm
      [PyVal.dict [("worktree", .str "z2"), ("status", .str "unknown")],
       PyVal.dict [("worktree", .str "z1"), ("status", .str "zzz")]]
      [PyVal.dict [("worktree", .str "z1"), ("status", .str "zzz")],
       PyVal.dict [("worktree", .str "z2"), ("status", .str "unknown")]] :=
  (C6_priority_and_stability
    [PyVal.dict [("worktree", .str "z1"), ("status", .str "zzz")],
     PyVal.dict [("worktree", .str "z2"), ("status", .str "unknown")]]
    [PyVal.dict [("worktree", .str "z2"), ("status", .str "unknown")],
     PyVal.dict [("worktree", .str "z1"), ("status", .str "zzz")]] rfl).1

/-! ### Claim C7 — namespace ordering -/

theorem repoPairLe_total : LeTotal repoPairLe := fun p q => repoKeyLe_total p.1 q.1

theorem repoPairLe_trans : LeTrans repoPairLe :=
  fun p q r h1 h2 => repoKeyLe_trans p.1 q.1 r.1 h1 h2

theorem forall₂_repo_keyed_struct :
    ∀ {l : List (String × List PyVal)} {keyed : List (RepoKey × (String × List PyVal))},
      List.Forall₂ (fun g b => (match repo_priority g.2 g.1 with
        | .error e => .error e
        | .ok k => .ok (k, g)) = Except.ok b) l keyed →
      keyed.map (fun p => p.2) = l ∧ ∀ p ∈ keyed, repo_priority p.2.2 p.2.1 = .ok p.1 := by
  intro l keyed h
  induction h with
  | nil => exact ⟨rfl, by simp⟩
  | cons ha hrest ih =>
    rename_i g b l2 keyed2
    cases hk : repo_priority g.2 g.1 with
    | error e => rw [hk] at ha; simp at ha
    | ok k =>
      rw [hk] at ha
      simp only [Except.ok.injEq] at ha
      refine ⟨?_, ?_⟩
      · rw [List.map_cons, ih.1, ← ha]
      · intro p hp
        rcases List.mem_cons.mp hp with heq | hp2
        · rw [heq, ← ha]
          simpa using hk
        · exact ih.2 p hp2

theorem sorted_repos_ok_struct {repos out : List (String × List PyVal)}
    (h : sorted_repos repos = .ok out) :
    ∃ keyed : List (RepoKey × (String × List PyVal)),
      out = (sortLe repoPairLe keyed).map (fun p => p.2) ∧
      keyed.map (fun p => p.2) = repos ∧
      (∀ p ∈ keyed, repo_priority p.2.2 p.2.1 = .ok p.1) := by
  unfold sorted_repos at h
  split at h
  · simp at h
  · rename_i keyed hm
    simp only [Except.ok.injEq] at h
    have hs := forall₂_repo_keyed_struct (exceptMap_ok_forall₂ hm)
    exact ⟨keyed, h.symm, hs.1, hs.2⟩

/-- Claim C7 confirmed: aggregation output groups are in the
`repo_priority` order — the lexicographic comparison of
`(not has_waiting, not has_error, not has_running, name)` — and the
spec's worked example produces group order `[A, B]` with A's records
`[r2, r1]`. -/
theorem C7_namespace_order :
    (∀ (scan : List (String × PyVal)) (out : List (String × List PyVal)),
      group_and_rank scan = .ok out →
      out.Pairwise (fun g1 g2 =>
        repoKeyLe (repo_key_default g1) (repo_key_default g2) = true)) ∧
    group_and_rank
      [("A", PyVal.dict [("worktree", .str "r1"), ("status", .str "idle")]),
       ("A", PyVal.dict [("worktree", .str "r2"), ("status", .str "waiting_input")]),
       ("B", PyVal.dict [("worktree", .str "r3"), ("status", .str "error")])] =
      .ok [("A", [PyVal.dict [("worktree", .str "r2"), ("status", .str "waiting_input")],
                  PyVal.dict [("worktree", .str "r1"), ("status", .str "idle")]]),
           ("B", [PyVal.dict [("worktree", .str "r3"), ("status", .str "error")]])] := by
  constructor
  · intro scan out h
    unfold group_and_rank at h
    split at h
    · simp at h
    · rename_i repos hmap
      rcases sorted_repos_ok_struct h with ⟨keyed, hout, hsnd, hkeys⟩
      have hkf : ∀ p ∈ keyed, repo_key_default p.2 = p.1 := by
        intro p hp
        simp only [repo_key_default, hkeys p hp]
      rw [hout, List.pairwise_map]
      refine List.Pairwise.imp_of_mem ?_
        (sortLe_pairwise repoPairLe_total repoPairLe_trans keyed)
      intro p q hp hq hle
      rw [hkf p ((sortLe_perm repoPairLe keyed).mem_iff.mp hp),
          hkf q ((sortLe_perm repoPairLe keyed).mem_iff.mp hq)]
      simpa [repoPairLe] using hle
  · rfl

/-- Witness for `C7_namespace_order` at the spec's worked example. -/
theorem C7_namespace_order_witness :
    ([("A", [PyVal.dict [("worktree", .str "r2"), ("status", .str "waiting_input")],
             PyVal.dict [("worktree", .str "r1"), ("status", .str "idle")]]),
      ("B", [PyVal.dict [("worktree", .str "r3"), ("status", .str "error")]])] :
      List (String × List PyVal)).Pairwise
      (fun g1 g2 => repoKeyLe (repo_key_default g1) (repo_key_default g2) = true) :=
  C7_namespace_order.1
    [("A", PyVal.dict [("worktree", .str "r1"), ("status", .str "idle")]),
     ("A", PyVal.dict [("worktree", .str "r2"), ("status", .str "waiting_input")]),
     ("B", PyVal.dict [("worktree", .str "r3"), ("status", .str "error")])]
    [("A", [PyVal.dict [("worktree", .str "r2"), ("status", .str "waiting_input")],
            PyVal.dict [("worktree", .str "r1"), ("status", .str "idle")]]),
     ("B", [PyVal.dict [("worktree", .str "r3"), ("status", .str "error")]])] rfl

/-! ### Claim C5 — permutation determinism of the aggregation -/

theorem add_record_names : ∀ (acc : List (String × List PyVal)) (n : String) (r : PyVal),
    (add_record acc n r).map Prod.fst =
      if n ∈ acc.map Prod.fst then acc.map Prod.fst else acc.map Prod.fst ++ [n] := by
  intro acc n r
  induction acc with
  | nil => simp [add_record]
  | cons g rest ih =>
    rcases g with ⟨m, rs⟩
    simp only [add_record]
    by_cases hmn : m = n
    · rw [if_pos hmn]
      simp [hmn]
    · rw [if_neg hmn]
      simp only [List.map_cons, ih]
      by_cases hmem : n ∈ rest.map Prod.fst
      · rw [if_pos hmem, if_pos (by simp [hmem])]
      · rw [if_neg hmem]
        have hn2 : n ∉ (m :: rest.map Prod.fst) := by
          simp only [List.mem_cons]
          rintro (hc | hc)
          · exact hmn hc.symm
          · exact hmem hc
        rw [if_neg hn2]
        simp

theorem add_record_names_mem (acc : List (String × List PyVal)) (n n2 : String) (r : PyVal) :
    n2 ∈ (add_record acc n r).map Prod.fst ↔ n2 ∈ acc.map Prod.fst ∨ n2 = n := by
  rw [add_record_names]
  by_cases h : n ∈ acc.map Prod.fst
  · rw [if_pos h]
    constructor
    · exact fun hm => Or.inl hm
    · rintro (hm | hm)
      · exact hm
      · rw [hm]
        exact h
  · rw [if_neg h]
    simp

theorem add_record_names_nodup (acc : List (String × List PyVal)) (n : String) (r : PyVal)
    (h : (acc.map Prod.fst).Nodup) : ((add_record acc n r).map Prod.fst).Nodup := by
  rw [add_record_names]
  by_cases hm : n ∈ acc.map Prod.fst
  · rw [if_pos hm]
    exact h
  · rw [if_neg hm]
    simp [List.nodup_append, h, hm]

theorem fold_names_nodup : ∀ (scan : List (String × PyVal)) (acc : List (String × List PyVal)),
    (acc.map Prod.fst).Nodup →
    ((scan.foldl (fun a p => add_record a p.1 p.2) acc).map Prod.fst).Nodup := by
  intro scan
  induction scan with
  | nil => intro acc h; exact h
  | cons p rest ih =>
    intro acc h
    simp only [List.foldl_cons]
    exact ih _ (add_record_names_nodup acc p.1 p.2 h)

theorem fold_names_mem : ∀ (scan : List (String × PyVal)) (acc : List (String × List PyVal))
    (n : String), n ∈ ((scan.foldl (fun a p => add_record a p.1 p.2) acc).map Prod.fst) ↔
      n ∈ acc.map Prod.fst ∨ n ∈ scan.map Prod.fst := by
  intro scan
  induction scan with
  | nil => intro acc n; simp
  | cons p rest ih =>
    intro acc n
    simp only [List.foldl_cons, ih, add_record_names_mem, List.map_cons, List.mem_cons]
    tauto

theorem groupByRepo_names_nodup (scan : List (String × PyVal)) :
    ((groupByRepo scan).map Prod.fst).Nodup :=
  fold_names_nodup scan [] (by simp)

theorem groupByRepo_names_mem (scan : List (String × PyVal)) (n : String) :
    n ∈ (groupByRepo scan).map Prod.fst ↔ n ∈ scan.map Prod.fst := by
  unfold groupByRepo
  rw [fold_names_mem]
  simp

theorem groupVal_add_record (n n2 : String) (r : PyVal) :
    ∀ acc : List (String × List PyVal),
      groupVal (add_record acc n r) n2 =
        if n2 = n then groupVal acc n2 ++ [r] else groupVal acc n2 := by
  intro acc
  induction acc with
  | nil =>
    simp only [add_record, groupVal]
    by_cases h : n2 = n
    · rw [if_pos h.symm, if_pos h]
      rfl
    · rw [if_neg (fun hc => h hc.symm), if_neg h]
  | cons g rest ih =>
    rcases g with ⟨m, rs⟩
    simp only [add_record]
    by_cases hmn : m = n
    · rw [if_pos hmn]
      simp only [groupVal]
      by_cases h2 : m = n2
      · have hn2 : n2 = n := h2 ▸ hmn
        rw [if_pos h2, if_pos hn2, if_pos h2]
      · have hn2 : n2 ≠ n := fun hc => h2 (hmn.trans hc.symm)
        rw [if_neg h2, if_neg hn2, if_neg h2]
    · rw [if_neg hmn]
      simp only [groupVal]
      by_cases h2 : m = n2
      · have hn2 : n2 ≠ n := fun hc => hmn (h2.trans hc)
        rw [if_pos h2, if_neg hn2, if_pos h2]
      · simp only [if_neg h2, ih]

theorem groupVal_fold : ∀ (scan : List (String × PyVal)) (acc : List (String × List PyVal))
    (n : String), groupVal (scan.foldl (fun a p => add_record a p.1 p.2) acc) n =
      groupVal acc n ++ namespace_records scan n := by
  intro scan
  induction scan with
  | nil => intro acc n; simp [namespace_records]
  | cons p rest ih =>
    intro acc n
    rcases p with ⟨n0, r⟩
    simp only [List.foldl_cons]
    rw [ih, groupVal_add_record]
    simp only [namespace_records, List.filter_cons]
    by_cases h : n = n0
    · rw [if_pos h]
      have hc : ((n0, r).1 == n) = true := by simp [h]
      rw [hc]
      simp [namespace_records, List.append_assoc]
    · rw [if_neg h]
      have hc : ((n0, r).1 == n) = false := by simp; exact fun hcc => h hcc.symm
      rw [hc]
      simp [namespace_records]

theorem groupByRepo_groupVal (scan : List (String × PyVal)) (n : String) :
    groupVal (groupByRepo scan) n = namespace_records scan n := by
  unfold groupByRepo
  rw [groupVal_fold]
  rfl

theorem assoc_mem_groupVal : ∀ (groups : List (String × List PyVal))
    (g : String × List PyVal), (groups.map Prod.fst).Nodup →
    (g ∈ groups ↔ g.1 ∈ groups.map Prod.fst ∧ g.2 = groupVal groups g.1) := by
  intro groups g
  induction groups with
  | nil => simp
  | cons g0 rest ih =>
    intro hnd
    rcases g0 with ⟨m, rs⟩
    simp only [List.map_cons, List.nodup_cons] at hnd
    constructor
    · intro hmem
      rcases List.mem_cons.mp hmem with heq | hmem2
      · rw [heq]
        simp [groupVal]
      · have hr := (ih hnd.2).mp hmem2
        have hne : m ≠ g.1 := fun hc => hnd.1 (hc ▸ hr.1)
        refine ⟨by simp [hr.1], ?_⟩
        simp only [groupVal, if_neg hne]
        exact hr.2
    · rintro ⟨h1, h2⟩
      rcases List.mem_cons.mp h1 with heq | hmem2
      · have hval : g.2 = rs := by
          rw [h2]
          simp only [groupVal, if_pos heq.symm]
        have hg : g = (m, rs) := by
          rcases g with ⟨gn, gv⟩
          simp only at heq hval
          rw [heq, hval]
        rw [hg]
        exact List.mem_cons_self _ _
      · right
        have hne : m ≠ g.1 := fun hc => hnd.1 (hc ▸ hmem2)
        apply (ih hnd.2).mpr
        refine ⟨hmem2, ?_⟩
        rw [h2]
        simp only [groupVal, if_neg hne]

theorem exceptMap_mem_left {α β : Type} {f : α → Except PyError β} :
    ∀ {l : List α} {l2 : List β}, exceptMap f l = .ok l2 → ∀ a ∈ l, ∃ b ∈ l2, f a = .ok b := by
  intro l
  induction l with
  | nil => intro l2 h a ha; simp at ha
  | cons a0 as ih =>
    intro l2 h a ha
    simp only [exceptMap] at h
    cases hfa : f a0 with
    | error e => rw [hfa] at h; simp at h
    | ok b0 =>
      rw [hfa] at h
      cases hm : exceptMap f as with
      | error e => rw [hm] at h; simp at h
      | ok bs =>
        rw [hm] at h
        simp only [Except.ok.injEq] at h
        subst h
        rcases List.mem_cons.mp ha with rfl | ha2
        · exact ⟨b0, by simp, hfa⟩
        · rcases ih hm a ha2 with ⟨b, hb, hfb⟩
          exact ⟨b, by simp [hb], hfb⟩

theorem keyed_eq_map_of_keys {α κ : Type} (kf : α → κ) :
    ∀ keyed : List (κ × α), (∀ p ∈ keyed, kf p.2 = p.1) →
      keyed = (keyed.map (fun p => p.2)).map (fun a => (kf a, a)) := by
  intro keyed
  induction keyed with
  | nil => intro _; rfl
  | cons p rest ih =>
    intro h
    simp only [List.map_cons]
    rw [← ih (fun q hq => h q (by simp [hq]))]
    have hp := h p (by simp)
    rcases p with ⟨k, a⟩
    simp only at hp
    rw [hp]

theorem sort_agents_perm_eq {l1 l2 s1 s2 : List PyVal}
    (hperm : l1.Perm l2) (hnd : (l1.map agent_key_default).Nodup)
    (h1 : sort_agents l1 = .ok s1) (h2 : sort_agents l2 = .ok s2) : s1 = s2 := by
  rcases sort_agents_ok_struct h1 with ⟨k1, ho1, hs1, hk1⟩
  rcases sort_agents_ok_struct h2 with ⟨k2, ho2, hs2, hk2⟩
  have hm1 : k1 = l1.map (fun a => (agent_key_default a, a)) := by
    have := keyed_eq_map_of_keys agent_key_default k1
      (fun p hp => by simp [agent_key_default, hk1 p hp])
    rwa [hs1] at this
  have hm2 : k2 = l2.map (fun a => (agent_key_default a, a)) := by
    have := keyed_eq_map_of_keys agent_key_default k2
      (fun p hp => by simp [agent_key_default, hk2 p hp])
    rwa [hs2] at this
  have hkperm : k1.Perm k2 := by
    rw [hm1, hm2]
    exact hperm.map _
  have hknd : (k1.map Prod.fst).Nodup := by
    rw [hm1]
    simpa [List.map_map, Function.comp] using hnd
  have heq : sortLe natPairLe k1 = sortLe natPairLe k2 := by
    apply sorted_perm_eq_of_nodup_keys natPairLe_antisymm_fst
    · exact ((sortLe_perm _ k1).trans hkperm).trans (sortLe_perm _ k2).symm
    · exact sortLe_pairwise natPairLe_total natPairLe_trans k1
    · exact sortLe_pairwise natPairLe_total natPairLe_trans k2
    · exact (((sortLe_perm natPairLe k1).map Prod.fst).nodup_iff).mpr hknd
  rw [ho1, ho2, heq]

theorem forall₂_sorted_groups_struct :
    ∀ {l sg : List (String × List PyVal)},
      List.Forall₂ (fun g b => (match sort_agents g.2 with
        | .error e => .error e
        | .ok s => .ok (g.1, s)) = Except.ok b) l sg →
      sg.map Prod.fst = l.map Prod.fst ∧
      (∀ b ∈ sg, ∃ g ∈ l, g.1 = b.1 ∧ sort_agents g.2 = .ok b.2) := by
  intro l sg h
  induction h with
  | nil => exact ⟨rfl, by simp⟩
  | cons ha hrest ih =>
    rename_i g b l2 sg2
    cases hk : sort_agents g.2 with
    | error e => rw [hk] at ha; simp at ha
    | ok s =>
      rw [hk] at ha
      simp only [Except.ok.injEq] at ha
      constructor
      · rw [List.map_cons, List.map_cons, ih.1, ← ha]
      · intro b2 hb2
        rcases List.mem_cons.mp hb2 with heq | hb3
        · refine ⟨g, by simp, ?_, ?_⟩
          · rw [heq, ← ha]
          · rw [heq, ← ha]
            exact hk
        · rcases ih.2 b2 hb3 with ⟨g2, hg2, hfst, hsort⟩
          exact ⟨g2, by simp [hg2], hfst, hsort⟩

theorem sg_mem_char {scan : List (String × PyVal)} {sg : List (String × List PyVal)}
    (hmap : exceptMap (fun g => match sort_agents g.2 with
        | .error e => .error e
        | .ok s => .ok (g.1, s)) (groupByRepo scan) = .ok sg) :
    (sg.map Prod.fst).Nodup ∧
    ∀ b : String × List PyVal,
      b ∈ sg ↔ b.1 ∈ scan.map Prod.fst ∧
        sort_agents (namespace_records scan b.1) = .ok b.2 := by
  have hstruct := forall₂_sorted_groups_struct (exceptMap_ok_forall₂ hmap)
  have hnd : (sg.map Prod.fst).Nodup := by
    rw [hstruct.1]
    exact groupByRepo_names_nodup scan
  refine ⟨hnd, fun b => ⟨?_, ?_⟩⟩
  · intro hb
    rcases hstruct.2 b hb with ⟨g, hg, hfst, hsort⟩
    have hchar := (assoc_mem_groupVal (groupByRepo scan) g (groupByRepo_names_nodup scan)).mp hg
    refine ⟨?_, ?_⟩
    · rw [← hfst]
      exact (groupByRepo_names_mem scan g.1).mp hchar.1
    · rw [← hfst, ← groupByRepo_groupVal, ← hchar.2]
      exact hsort
  · rintro ⟨h1, h2⟩
    have hgm : b.1 ∈ (groupByRepo scan).map Prod.fst := (groupByRepo_names_mem scan b.1).mpr h1
    rcases List.mem_map.mp hgm with ⟨g, hg, hgfst⟩
    have hchar := (assoc_mem_groupVal (groupByRepo scan) g (groupByRepo_names_nodup scan)).mp hg
    have hg2 : g.2 = namespace_records scan b.1 := by
      rw [hchar.2, groupByRepo_groupVal, hgfst]
    rcases exceptMap_mem_left hmap g hg with ⟨b2, hb2, hfb⟩
    rw [hg2, h2] at hfb
    simp only [Except.ok.injEq] at hfb
    have hbeq : b = b2 := by
      rw [← hfb, hgfst]
    rw [hbeq]
    exact hb2

theorem sg_perm {sg1 sg2 : List (String × List PyVal)}
    {s1 s2 : List (String × PyVal)}
    (hperm : s1.Perm s2)
    (hdis : ∀ n : String, ((namespace_records s1 n).map agent_key_default).Nodup)
    (hmap1 : exceptMap (fun g => match sort_agents g.2 with
        | .error e => .error e
        | .ok s => .ok (g.1, s)) (groupByRepo s1) = .ok sg1)
    (hmap2 : exceptMap (fun g => match sort_agents g.2 with
        | .error e => .error e
        | .ok s => .ok (g.1, s)) (groupByRepo s2) = .ok sg2) :
    sg1.Perm sg2 := by
  obtain ⟨hnd1, hchar1⟩ := sg_mem_char hmap1
  obtain ⟨hnd2, hchar2⟩ := sg_mem_char hmap2
  have hnr : ∀ n, (namespace_records s1 n).Perm (namespace_records s2 n) :=
    fun n => (hperm.filter _).map _
  have hsorted2 : ∀ n, n ∈ s2.map Prod.fst →
      ∃ sv, sort_agents (namespace_records s2 n) = .ok sv := by
    intro n hn
    have hgm : n ∈ (groupByRepo s2).map Prod.fst := (groupByRepo_names_mem s2 n).mpr hn
    rcases List.mem_map.mp hgm with ⟨g, hg, hgfst⟩
    have hchar := (assoc_mem_groupVal (groupByRepo s2) g (groupByRepo_names_nodup s2)).mp hg
    have hg2 : g.2 = namespace_records s2 n := by
      rw [hchar.2, groupByRepo_groupVal, hgfst]
    rcases exceptMap_mem_left hmap2 g hg with ⟨b2, _, hfb⟩
    cases hk : sort_agents g.2 with
    | error e => rw [hk] at hfb; simp at hfb
    | ok sv =>
      rw [hg2] at hk
      exact ⟨sv, hk⟩
  have hsorted1 : ∀ n, n ∈ s1.map Prod.fst →
      ∃ sv, sort_agents (namespace_records s1 n) = .ok sv := by
    intro n hn
    have hgm : n ∈ (groupByRepo s1).map Prod.fst := (groupByRepo_names_mem s1 n).mpr hn
    rcases List.mem_map.mp hgm with ⟨g, hg, hgfst⟩
    have hchar := (assoc_mem_groupVal (groupByRepo s1) g (groupByRepo_names_nodup s1)).mp hg
    have hg2 : g.2 = namespace_records s1 n := by
      rw [hchar.2, groupByRepo_groupVal, hgfst]
    rcases exceptMap_mem_left hmap1 g hg with ⟨b2, _, hfb⟩
    cases hk : sort_agents g.2 with
    | error e => rw [hk] at hfb; simp at hfb
    | ok sv =>
      rw [hg2] at hk
      exact ⟨sv, hk⟩
  have hmembit : ∀ b : String × List PyVal, b ∈ sg1 ↔ b ∈ sg2 := by
    intro b
    rw [hchar1 b, hchar2 b]
    constructor
    · rintro ⟨hb1, hb2⟩
      have hb1' : b.1 ∈ s2.map Prod.fst := (hperm.map Prod.fst).mem_iff.mp hb1
      refine ⟨hb1', ?_⟩
      rcases hsorted2 b.1 hb1' with ⟨sv, hk⟩
      have hsv : b.2 = sv := sort_agents_perm_eq (hnr b.1) (hdis b.1) hb2 hk
      rw [hsv]
      exact hk
    · rintro ⟨hb1, hb2⟩
      have hb1' : b.1 ∈ s1.map Prod.fst := (hperm.map Prod.fst).mem_iff.mpr hb1
      refine ⟨hb1', ?_⟩
      rcases hsorted1 b.1 hb1' with ⟨sv, hk⟩
      have hsv : sv = b.2 := sort_agents_perm_eq (hnr b.1) (hdis b.1) hk hb2
      rw [← hsv]
      exact hk
  exact (List.perm_ext_iff_of_nodup (List.Nodup.of_map Prod.fst hnd1)
    (List.Nodup.of_map Prod.fst hnd2)).mpr hmembit

theorem repo_priority_name {agents : List PyVal} {name : String} {k : RepoKey}
    (h : repo_priority agents name = .ok k) : k.2.2.2 = name := by
  unfold repo_priority at h
  split at h
  · simp at h
  · rename_i hw hweq
    split at h
    · simp at h
    · rename_i hr hreq
      split at h
      · simp at h
      · rename_i he heeq
        simp only [Except.ok.injEq] at h
        rw [← h]

/-- Claim C5 as stated is false: two scans that are permutations of the
same record set need not aggregate identically.  Two records of equal
priority in one namespace keep their scan order (`list.sort` is stable
and the key is only the status priority), so swapping them in the input
swaps them in the output. -/
theorem C5_permutation_counterexample :
    ([("A", PyVal.dict [("worktree", .str "y1"), ("status", .str "idle")]),
      ("A", PyVal.dict [("worktree", .str "y2"), ("status", .str "idle")])] :
      List (String × PyVal)).Perm
      [("A", PyVal.dict [("worktree", .str "y2"), ("status", .str "idle")]),
       ("A", PyVal.dict [("worktree", .str "y1"), ("status", .str "idle")])] ∧
    group_and_rank
      [("A", PyVal.dict [("worktree", .str "y1"), ("status", .str "idle")]),
       ("A", PyVal.dict [("worktree", .str "y2"), ("status", .str "idle")])] =
      .ok [("A", [PyVal.dict [("worktree", .str "y1"), ("status", .str "idle")],
                  PyVal.dict [("worktree", .str "y2"), ("status", .str "idle")]])] ∧
    group_and_rank
      [("A", PyVal.dict [("worktree", .str "y2"), ("status", .str "idle")]),
       ("A", PyVal.dict [("worktree", .str "y1"), ("status", .str "idle")])] =
      .ok [("A", [PyVal.dict [("worktree", .str "y2"), ("status", .str "idle")],
                  PyVal.dict [("worktree", .str "y1"), ("status", .str "idle")]])] ∧
    (Except.ok [("A", [PyVal.dict [("worktree", .str "y1"), ("status", .str "idle")],
                       PyVal.dict [("worktree", .str "y2"), ("status", .str "idle")]])] :
      Except PyError (List (String × List PyVal))) ≠
      .ok [("A", [PyVal.dict [("worktree", .str "y2"), ("status", .str "idle")],
                  PyVal.dict [("worktree", .str "y1"), ("status", .str "idle")]])] := by
  refine ⟨List.Perm.swap _ _ _, rfl, rfl, ?_⟩
  intro hcontra
  simp at hcontra

/-- Claim C5 amended: the aggregation is order-independent in the input
up to ties — for permuted scans the namespace order and each namespace's
record multiset always agree, and the full outputs are identical whenever
no two records of the same namespace share a status priority.  (Records
of equal priority follow scan order, as the counterexample shows.) -/
theorem C5_perm_determinism (scan1 scan2 : List (String × PyVal))
    (out1 out2 : List (String × List PyVal))
    (hperm : scan1.Perm scan2)
    (hdis : ∀ n : String, ((namespace_records scan1 n).map agent_key_default).Nodup)
    (h1 : group_and_rank scan1 = .ok out1)
    (h2 : group_and_rank scan2 = .ok out2) :
    out1 = out2 := by
  unfold group_and_rank at h1 h2
  split at h1
  · simp at h1
  · rename_i sg1 hmap1
    split at h2
    · simp at h2
    · rename_i sg2 hmap2
      rcases sorted_repos_ok_struct h1 with ⟨rk1, ho1, hs1, hk1⟩
      rcases sorted_repos_ok_struct h2 with ⟨rk2, ho2, hs2, hk2⟩
      have hsgperm : sg1.Perm sg2 := sg_perm hperm hdis hmap1 hmap2
      have hm1 : rk1 = sg1.map (fun g => (repo_key_default g, g)) := by
        have := keyed_eq_map_of_keys repo_key_default rk1
          (fun p hp => by simp [repo_key_default, hk1 p hp])
        rwa [hs1] at this
      have hm2 : rk2 = sg2.map (fun g => (repo_key_default g, g)) := by
        have := keyed_eq_map_of_keys repo_key_default rk2
          (fun p hp => by simp [repo_key_default, hk2 p hp])
        rwa [hs2] at this
      have hrkperm : rk1.Perm rk2 := by
        rw [hm1, hm2]
        exact hsgperm.map _
      have hnd1 := (sg_mem_char hmap1).1
      have hkeysnd : (rk1.map Prod.fst).Nodup := by
        apply List.Nodup.of_map (fun k : RepoKey => k.2.2.2)
        have heqmap : (rk1.map Prod.fst).map (fun k : RepoKey => k.2.2.2) =
            sg1.map Prod.fst := by
          rw [List.map_map, ← hs1, List.map_map]
          apply List.map_congr_left
          intro p hp
          simp only [Function.comp_apply]
          exact repo_priority_name (hk1 p hp)
        rw [heqmap]
        exact hnd1
      have heq : sortLe repoPairLe rk1 = sortLe repoPairLe rk2 := by
        apply sorted_perm_eq_of_nodup_keys
          (fun a b hab hba => repoKeyLe_antisymm a.1 b.1 hab hba)
        · exact ((sortLe_perm _ rk1).trans hrkperm).trans (sortLe_perm _ rk2).symm
        · exact sortLe_pairwise repoPairLe_total repoPairLe_trans rk1
        · exact sortLe_pairwise repoPairLe_total repoPairLe_trans rk2
        · exact (((sortLe_perm repoPairLe rk1).map Prod.fst).nodup_iff).mpr hkeysnd
      rw [ho1, ho2, heq]

/-- Witness for `C5_perm_determinism`: a namespace holding one waiting
and one idle record (distinct priorities), scanned in the two orders. -/
theorem C5_perm_determinism_witness :
    ([("A", [PyVal.dict [("worktree", .str "w1"), ("status", .str "waiting_input")],
             PyVal.dict [("worktree", .str "w2"), ("status", .str "idle")]])] :
      List (String × List PyVal)) =
      [("A", [PyVal.dict [("worktree", .str "w1"), ("status", .str "waiting_input")],
              PyVal.dict [("worktree", .str "w2"), ("status", .str "idle")]])] :=
  C5_perm_determinism
    [("A", PyVal.dict [("worktree", .str "w1"), ("status", .str "waiting_input")]),
     ("A", PyVal.dict [("worktree", .str "w2"), ("status", .str "idle")])]
    [("A", PyVal.dict [("worktree", .str "w2"), ("status", .str "idle")]),
     ("A", PyVal.dict [("worktree", .str "w1"), ("status", .str "waiting_input")])]
    [("A", [PyVal.dict [("worktree", .str "w1"), ("status", .str "waiting_input")],
            PyVal.dict [("worktree", .str "w2"), ("status", .str "idle")]])]
    [("A", [PyVal.dict [("worktree", .str "w1"), ("status", .str "waiting_input")],
            PyVal.dict [("worktree", .str "w2"), ("status", .str "idle")]])]
    (List.Perm.swap _ _ _)
    (fun n => by
      by_cases h : ("A" : String) = n
      · rw [← h]
        decide
      · have hbeq : (("A" : String) == n) = false := by
          simp only [beq_eq_false_iff_ne, ne_eq]
          exact h
        simp [namespace_records, hbeq])
    rfl rfl

end AgentMonitor




